import Mathlib

/-!
# Verification of the workflow expression engine and simulator

Shallow embedding of the expression evaluator (`src/utils/expressionEngine.js`)
and the workflow interpreter embedded in `WorkflowSimulator.jsx`, with theorems
settling the frozen claims about them.

Modelling conventions:
* JavaScript dynamic values are the tagged union `Value` below, including a
  distinct `undef` constructor because the source distinguishes `undefined`
  from `null` (`val !== null && val !== undefined`, `current === undefined ||
  current === null`, `currentInputs[f.name] !== undefined`).
* Lists and objects are represented by the mutually-inductive `VList` and
  `VObj` (an insertion-ordered association structure) so that all recursion
  over values is structural; `listV`/`objV` convert ordinary Lean lists.
  Assignment `o[k] = v` updates the value in place when the key exists and
  appends otherwise, matching JavaScript property-order semantics.
* JavaScript numbers are modelled as integers (`Int`); all the claims under
  study involve only integer values, and numeric-literal recognition is
  correspondingly restricted to integer literals.
* Loose equality on two objects/arrays is modelled as `false`: in the engine
  every object operand of `==` is a freshly produced value, so JavaScript
  reference equality of two object operands is always `false` there (aliasing
  is not modelled).
* The string-scanning evaluator functions recurse on substrings, not
  structurally; they take an explicit fuel argument that strictly decreases on
  every recursive call.  The public entry point supplies a fuel larger than
  the longest possible call chain for the given text, so the fuel-exhaustion
  branch is unreachable from it.
* Strings are manipulated as `List Char`, the logical model of `String`.
-/

namespace Wave

mutual

/-- JavaScript-style dynamic value: the engine's Value model, with a separate
`undef` constructor mirroring JavaScript `undefined`. -/
inductive Value where
  | undef : Value
  | null : Value
  | bool (b : Bool) : Value
  | num (n : Int) : Value
  | str (s : String) : Value
  | list (xs : VList) : Value
  | obj (fs : VObj) : Value

/-- A JavaScript array of values. -/
inductive VList where
  | nil : VList
  | cons (v : Value) (tl : VList) : VList

/-- A JavaScript object: insertion-ordered key/value entries. -/
inductive VObj where
  | nil : VObj
  | cons (k : String) (v : Value) (tl : VObj) : VObj

end

/-- Convert a Lean list of values to a `VList`. -/
def listV : List Value → VList
  | [] => VList.nil
  | v :: rest => VList.cons v (listV rest)

/-- Convert a Lean association list to a `VObj`. -/
def objV : List (String × Value) → VObj
  | [] => VObj.nil
  | (k, v) :: rest => VObj.cons k v (objV rest)

/-- Number of elements of an array. -/
def VList.length : VList → Nat
  | VList.nil => 0
  | VList.cons _ tl => 1 + tl.length

/-- Element at an index (`undefined` out of range). -/
def VList.getIdx : VList → Nat → Value
  | VList.nil, _ => Value.undef
  | VList.cons v _, 0 => v
  | VList.cons _ tl, n + 1 => tl.getIdx n

/-- Number of keys of an object (`Object.keys(o).length`). -/
def VObj.length : VObj → Nat
  | VObj.nil => 0
  | VObj.cons _ _ tl => 1 + tl.length

/-- Property lookup; absent keys give `undefined`. -/
def lookupA : VObj → String → Value
  | VObj.nil, _ => Value.undef
  | VObj.cons k' v rest, k => if k' = k then v else lookupA rest k

/-- JS assignment `o[k] = v`: update in place if present, else append. -/
def objUpdate : VObj → String → Value → VObj
  | VObj.nil, k, v => VObj.cons k v VObj.nil
  | VObj.cons k' v' rest, k, v =>
    if k' = k then VObj.cons k' v rest
    else VObj.cons k' v' (objUpdate rest k v)

/-- JavaScript truthiness (`!!v`). -/
def truthy : Value → Bool
  | Value.undef => false
  | Value.null => false
  | Value.bool b => b
  | Value.num n => n != 0
  | Value.str s => s ≠ ""
  | Value.list _ => true
  | Value.obj _ => true

/-- Property lookup on a `Value` (objects only; everything else gives
`undefined`). -/
def objLookup : Value → String → Value
  | Value.obj fs, k => lookupA fs k
  | _, _ => Value.undef

/-- Property assignment on a `Value` (objects only; assignment on a non-object
is unreachable in the modelled states and leaves the value unchanged). -/
def objSet : Value → String → Value → Value
  | Value.obj fs, k, v => Value.obj (objUpdate fs k v)
  | w, _, _ => w

/-! ## Character-level string helpers

The evaluator scans raw strings; we model them as `List Char`.  A few
characters are written via `Char.ofNat` so that quotes, braces and backslash
never appear as character literals. -/

/-- The double-quote character `"`. -/
def dq : Char := Char.ofNat 34
/-- The single-quote character. -/
def sq : Char := Char.ofNat 39
/-- The backslash character. -/
def bsl : Char := Char.ofNat 92
/-- The opening curly brace. -/
def lbr : Char := Char.ofNat 123
/-- The closing curly brace. -/
def rbr : Char := Char.ofNat 125

/-- JavaScript `String.prototype.trim` whitespace predicate (ASCII portion). -/
def isWs (c : Char) : Bool :=
  c = ' ' ∨ c = '\t' ∨ c = '\n' ∨ c = '\r'

/-- Trim whitespace from both ends (JS `trim()`). -/
def trimL (cs : List Char) : List Char :=
  ((cs.dropWhile isWs).reverse.dropWhile isWs).reverse

/-- Does `cs` start with `p`? -/
def startsWithL : List Char → List Char → Bool
  | _, [] => true
  | [], _ :: _ => false
  | c :: cs, p :: ps => c = p && startsWithL cs ps

/-- Does `cs` end with `p`? -/
def endsWithL (cs p : List Char) : Bool :=
  startsWithL cs.reverse p.reverse

/-- Does `cs` contain `p` as a substring (JS `includes`)? -/
def includesL : List Char → List Char → Bool
  | [], p => p.isEmpty
  | c :: cs, p => startsWithL (c :: cs) p || includesL cs p

/-- Index of the last occurrence of `p` in `cs`, or `-1` (JS `lastIndexOf`). -/
def lastIndexOfL (cs p : List Char) : Int :=
  go cs 0 (-1)
where
  go : List Char → Nat → Int → Int
    | [], _, best => best
    | c :: rest, i, best =>
      go rest (i + 1) (if startsWithL (c :: rest) p then (i : Int) else best)

/-- JS `substring(a, b)`: clamps both indices to the string and swaps them when
`a > b`. -/
def substringL (cs : List Char) (a b : Int) : List Char :=
  let n : Int := cs.length
  let a' := (max 0 (min a n)).toNat
  let b' := (max 0 (min b n)).toNat
  let lo := min a' b'
  let hi := max a' b'
  (cs.take hi).drop lo

/-- JS one-argument `substring(a)` / `substring(a, length)`. -/
def substringFromL (cs : List Char) (a : Int) : List Char :=
  substringL cs a cs.length

/-- Replace the first occurrence of `p` in `cs` by nothing
(JS `replace(p, '')` with a string pattern replaces only the first match). -/
def removeFirstL : List Char → List Char → List Char
  | [], _ => []
  | c :: cs, p =>
    if startsWithL (c :: cs) p then (c :: cs).drop p.length
    else c :: removeFirstL cs p

/-- Split on every occurrence of the character `d` (JS `split('.')`,
keeping empty segments; `""` yields `[""]`). -/
def splitCharL (d : Char) : List Char → List (List Char)
  | [] => [[]]
  | c :: cs =>
    let rest := splitCharL d cs
    if c = d then [] :: rest
    else
      match rest with
      | [] => [[c]]
      | r :: rs => (c :: r) :: rs

/-! ## The delimiter-aware splitter (`splitByTopLevel`)

Mirrors the source: scans left to right, toggling quote state (honouring a
backslash immediately before a quote character), tracking `()`/`\x7b\x7d`/`[]`
nesting outside quotes, and splitting on the delimiter only at depth 0 outside
quotes.  The characters of a matched delimiter beyond the first are skipped
without processing, exactly as `i += delimiter.length - 1` does. -/

/-- One quote-state update: `char === '"' || char === "'"` with the previous
character not a backslash toggles in/out of quote mode. -/
def quoteStep (prev : Option Char) (c : Char) (q : Option Char) : Option Char :=
  if (c = dq ∨ c = sq) ∧ prev ≠ some bsl then
    if q = some c then none
    else if q = none then some c
    else q
  else q

/-- Bracket-level update (applied only outside quotes). -/
def levelStep (c : Char) (pl brl kl : Int) : Int × Int × Int :=
  if c = '(' then (pl + 1, brl, kl)
  else if c = ')' then (pl - 1, brl, kl)
  else if c = lbr then (pl, brl + 1, kl)
  else if c = rbr then (pl, brl - 1, kl)
  else if c = '[' then (pl, brl, kl + 1)
  else if c = ']' then (pl, brl, kl - 1)
  else (pl, brl, kl)

/-- Worker for `splitByTopLevel`.  A positive `skip` counter stands for the
source's `i += delimiter.length - 1`: the remaining characters of a matched
delimiter are consumed without any processing (they only become the "previous
character" for the quote check). -/
def splitTopAux (delim : List Char) : List Char → Nat → Option Char →
    Option Char → Int → Int → Int → List Char → List (List Char) →
    List (List Char)
  | [], _, _, _, _, _, _, current, acc => acc ++ [current.reverse]
  | c :: rest, skip + 1, _, q, pl, brl, kl, current, acc =>
    splitTopAux delim rest skip (some c) q pl brl kl current acc
  | c :: rest, 0, prev, q, pl, brl, kl, current, acc =>
    let q' := quoteStep prev c q
    let (pl', brl', kl') :=
      if q'.isNone then levelStep c pl brl kl else (pl, brl, kl)
    if q'.isNone ∧ pl' = 0 ∧ brl' = 0 ∧ kl' = 0 ∧
        startsWithL (c :: rest) delim then
      splitTopAux delim rest (delim.length - 1) (some c) q' pl' brl' kl' []
        (acc ++ [current.reverse])
    else
      splitTopAux delim rest 0 (some c) q' pl' brl' kl' (c :: current) acc

/-- `splitByTopLevel(str, delimiter)` from the source: split at top-level
occurrences of `delimiter`, returning the trimmed segments. -/
def splitByTopLevel (cs : List Char) (delim : List Char) : List (List Char) :=
  (splitTopAux delim cs 0 none none 0 0 0 [] []).map trimL

/-- Worker for `splitOnSubstr`; a positive `skip` counter consumes the
remaining characters of a matched separator. -/
def splitSubAux (sep : List Char) : List Char → Nat → List (List Char)
  | [], _ => [[]]
  | _ :: rest, skip + 1 => splitSubAux sep rest skip
  | c :: rest, 0 =>
    if startsWithL (c :: rest) sep then
      [] :: splitSubAux sep rest (sep.length - 1)
    else
      match splitSubAux sep rest 0 with
      | [] => [[c]]
      | r :: rs => (c :: r) :: rs

/-- JS `String.prototype.split(sep)` (also used for the `->` split in the
`map` stage): splits on every occurrence of `sep`, keeping empty segments; an
empty separator splits into single characters. -/
def splitOnSubstr (cs sep : List Char) : List (List Char) :=
  if sep = [] then cs.map (fun c => [c])
  else splitSubAux sep cs 0

/-! ## Numbers and JavaScript coercions -/

/-- Integer-literal recognition standing in for JS `!isNaN(str)`
(`Number(str)` is not `NaN`).  The empty / all-whitespace string converts to
`0` in JS, hence counts as numeric; otherwise we require an optional sign
followed by digits (the model's integer restriction). -/
def isNumericL (cs : List Char) : Bool :=
  let t := trimL cs
  t.isEmpty ||
    (let t' := if startsWithL t ['-'] ∨ startsWithL t ['+'] then t.drop 1 else t
     !t'.isEmpty && t'.all (·.isDigit))

/-- Digits to a natural number. -/
def digitsToNat (cs : List Char) : Nat :=
  cs.foldl (fun acc c => acc * 10 + (c.toNat - 48)) 0

/-- JS `Number(str)` restricted to integer syntax; `none` models `NaN`. -/
def jsNumber? (cs : List Char) : Option Int :=
  let t := trimL cs
  if t.isEmpty then some 0
  else
    let neg := startsWithL t ['-']
    let t' := if neg ∨ startsWithL t ['+'] then t.drop 1 else t
    if !t'.isEmpty && t'.all (·.isDigit) then
      some (if neg then -(digitsToNat t' : Int) else (digitsToNat t' : Int))
    else none

/-- JS `parseInt(str)` restricted to integer syntax: optional sign followed by
at least one leading digit; `none` models `NaN`. -/
def jsParseInt? (cs : List Char) : Option Int :=
  let t := trimL cs
  let neg := startsWithL t ['-']
  let t' := if neg ∨ startsWithL t ['+'] then t.drop 1 else t
  let ds := t'.takeWhile (·.isDigit)
  if ds.isEmpty then none
  else some (if neg then -(digitsToNat ds : Int) else (digitsToNat ds : Int))

mutual

/-- JS `String(v)` (`toString`).  Arrays join their elements with `,`,
rendering `null`/`undefined` elements as empty; plain objects render as
`[object Object]`. -/
def jsToString : Value → String
  | Value.undef => "undefined"
  | Value.null => "null"
  | Value.bool b => if b then "true" else "false"
  | Value.num n => toString n
  | Value.str s => s
  | Value.list xs => String.mk (jsJoinChars xs [','])
  | Value.obj _ => "[object Object]"

/-- `Array.prototype.join(sep)`: `null`/`undefined` elements render empty. -/
def jsJoinChars : VList → List Char → List Char
  | VList.nil, _ => []
  | VList.cons v VList.nil, _ =>
    (match v with
     | Value.undef => []
     | Value.null => []
     | w => (jsToString w).data)
  | VList.cons v tl, sep =>
    (match v with
     | Value.undef => []
     | Value.null => []
     | w => (jsToString w).data) ++ sep ++ jsJoinChars tl sep

end

/-- JS `ToPrimitive` as relevant to `==`/relational operators: arrays and
objects convert via their string form. -/
def toPrim : Value → Value
  | Value.list xs => Value.str (jsToString (Value.list xs))
  | Value.obj fs => Value.str (jsToString (Value.obj fs))
  | v => v

/-- JS `ToNumber` on a primitive; `none` models `NaN`. -/
def toNumber? : Value → Option Int
  | Value.undef => none
  | Value.null => some 0
  | Value.bool b => some (if b then 1 else 0)
  | Value.num n => some n
  | Value.str s => jsNumber? s.data
  | v => jsNumber? (jsToString v).data

/-- JS loose equality on primitives (after `ToPrimitive`). -/
def jsEqPrim : Value → Value → Bool
  | Value.null, Value.null => true
  | Value.null, Value.undef => true
  | Value.undef, Value.null => true
  | Value.undef, Value.undef => true
  | Value.null, _ => false
  | _, Value.null => false
  | Value.undef, _ => false
  | _, Value.undef => false
  | Value.str s, Value.str t => s = t
  | a, b =>
    match toNumber? a, toNumber? b with
    | some x, some y => x = y
    | _, _ => false

/-- JS loose equality `==`.  Two object/array operands compare by reference;
in the engine both operands of `==` are freshly produced values, so that case
is modelled as `false` (aliasing is not modelled). -/
def jsEq (a b : Value) : Bool :=
  match a, b with
  | Value.list _, Value.list _ => false
  | Value.list _, Value.obj _ => false
  | Value.obj _, Value.list _ => false
  | Value.obj _, Value.obj _ => false
  | Value.list _, Value.null => false
  | Value.list _, Value.undef => false
  | Value.obj _, Value.null => false
  | Value.obj _, Value.undef => false
  | Value.null, Value.list _ => false
  | Value.undef, Value.list _ => false
  | Value.null, Value.obj _ => false
  | Value.undef, Value.obj _ => false
  | a, b => jsEqPrim (toPrim a) (toPrim b)

/-- JS abstract relational comparison `a < b`; `none` models an undefined
comparison (a `NaN` operand). -/
def jsLess? (a b : Value) : Option Bool :=
  match toPrim a, toPrim b with
  | Value.str s, Value.str t => some (decide (s < t))
  | a', b' =>
    match toNumber? a', toNumber? b' with
    | some x, some y => some (decide (x < y))
    | _, _ => none

/-- JS `a > b`. -/
def jsGT (a b : Value) : Bool := (jsLess? b a).getD false
/-- JS `a < b`. -/
def jsLT (a b : Value) : Bool := (jsLess? a b).getD false
/-- JS `a >= b` (`¬(a < b)`, false on NaN). -/
def jsGE (a b : Value) : Bool :=
  match jsLess? a b with
  | some r => !r
  | none => false
/-- JS `a <= b` (`¬(b < a)`, false on NaN). -/
def jsLE (a b : Value) : Bool :=
  match jsLess? b a with
  | some r => !r
  | none => false

/-- JS `a || b` (value-returning). -/
def jsOr (a b : Value) : Value := if truthy a then a else b
/-- JS `a && b` (value-returning). -/
def jsAnd (a b : Value) : Value := if truthy a then b else a

/-! ## Variable resolution (`resolveVariable`) -/

/-- One lookup step `current[part]` (with the source's
`Array.isArray(current) && !isNaN(part)` integer-index branch).  String
indexing and `length` properties follow JS; number/boolean prototype
properties are not modelled. -/
def jsGetPart (cur : Value) (part : List Char) : Value :=
  match cur with
  | Value.list xs =>
    if isNumericL part then
      match jsParseInt? part with
      | some i => if 0 ≤ i then xs.getIdx i.toNat else Value.undef
      | none => Value.undef
    else if part = "length".data then Value.num xs.length
    else Value.undef
  | Value.obj fs => lookupA fs (String.mk part)
  | Value.str s =>
    if part = "length".data then Value.num s.length
    else
      match jsParseInt? part with
      | some i =>
        if (toString i).data = part ∧ 0 ≤ i ∧ i < (s.length : Int) then
          Value.str (String.mk [s.data.getD i.toNat ' '])
        else Value.undef
      | none => Value.undef
  | _ => Value.undef

/-- The walk inside `resolveVariable`: at the start of each step, a `null` or
`undefined` current value short-circuits to `null`; the final lookup result is
returned as-is (so a miss at the last component yields `undefined`). -/
def resolveParts : Value → List (List Char) → Value
  | cur, [] => cur
  | cur, p :: rest =>
    match cur with
    | Value.undef => Value.null
    | Value.null => Value.null
    | cur => resolveParts (jsGetPart cur p) rest

/-- `resolveVariable(path, context)` from the source. -/
def resolveVariable (path : String) (context : Value) : Value :=
  resolveParts context (splitCharL '.' path.data)

/-! ## The expression evaluator

Faithful embedding of `evaluateExpression` and its recursive-descent helpers.
Every recursive call decreases the fuel argument by exactly one; the public
entry point `evaluateExpression` supplies fuel exceeding the longest possible
call chain for its input (each nesting level consumes at most eight fuel and
at least one character of the text). -/

/-- One element of a `+` concatenation: `val === null || val === undefined ?
'' : String(val)`. -/
def concatPiece : Value → List Char
  | Value.null => []
  | Value.undef => []
  | v => (jsToString v).data

/-- The `??` existence test result: `val !== null && val !== undefined`. -/
def existsTest : Value → Bool
  | Value.null => false
  | Value.undef => false
  | _ => true

mutual

/-- `evaluateExpression(expression, context)`: falsy inputs give `null`,
truthy non-strings pass through, strings are trimmed, stripped of a wrapping
`$\x7b...\x7d`, and parsed top-down.  (The source's `try/catch` is vacuous in
the model: no helper throws.) -/
def evaluateExpressionF : Nat → Value → Value → Value
  | 0, _, _ => Value.null
  | f + 1, expression, context =>
    if truthy expression = false then Value.null
    else
      match expression with
      | Value.str s =>
        let e := trimL s.data
        let e :=
          if startsWithL e ['$', lbr] ∧ endsWithL e [rbr] then
            substringL e 2 ((e.length : Int) - 1)
          else e
        evalLogical f e context
      | v => v

/-- `evalLogical`: split on top-level `||` and fold with JS `||`
(all operands evaluated; no short-circuit). -/
def evalLogical : Nat → List Char → Value → Value
  | 0, _, _ => Value.null
  | f + 1, expr, context =>
    match splitByTopLevel expr ['|', '|'] with
    | p0 :: p1 :: ps => evalOrFold f (evalAnd f p0 context) (p1 :: ps) context
    | _ => evalAnd f expr context

/-- The `reduce` of `evalLogical`: fold the remaining `||` operands. -/
def evalOrFold : Nat → Value → List (List Char) → Value → Value
  | 0, _, _, _ => Value.null
  | _, acc, [], _ => acc
  | f + 1, acc, p :: ps, context =>
    evalOrFold f (jsOr acc (evalAnd f p context)) ps context

/-- `evalAnd`: split on top-level `&&` and fold with JS `&&`
(all operands evaluated; no short-circuit). -/
def evalAnd : Nat → List Char → Value → Value
  | 0, _, _ => Value.null
  | f + 1, expr, context =>
    match splitByTopLevel expr ['&', '&'] with
    | p0 :: p1 :: ps => evalAndFold f (evalTernary f p0 context) (p1 :: ps) context
    | _ => evalTernary f expr context

/-- The `reduce` of `evalAnd`: fold the remaining `&&` operands. -/
def evalAndFold : Nat → Value → List (List Char) → Value → Value
  | 0, _, _, _ => Value.null
  | _, acc, [], _ => acc
  | f + 1, acc, p :: ps, context =>
    evalAndFold f (jsAnd acc (evalTernary f p context)) ps context

/-- `evalTernary`: recognise a trailing `?then(a, b)` call at the *last*
occurrence (plain `lastIndexOf`, not structure-aware) of the literal substring
`?then(`, require a nonzero prefix, a trailing `)` and exactly two
comma-separated arguments, then evaluate the prefix as a condition and exactly
one argument. -/
def evalTernary : Nat → List Char → Value → Value
  | 0, _, _ => Value.null
  | f + 1, expr, context =>
    if includesL expr "?then".data then
      let thenIndex := lastIndexOfL expr "?then(".data
      if thenIndex > 0 then
        let suffix := substringFromL expr thenIndex
        if endsWithL suffix [')'] then
          let content := substringL suffix 6 ((suffix.length : Int) - 1)
          match splitByTopLevel content [','] with
          | [a0, a1] =>
            let conditionPart := trimL (substringL expr 0 thenIndex)
            if truthy (evalLogical f conditionPart context) then
              evalTernary f a0 context
            else
              evalTernary f a1 context
          | _ => evalEquality f expr context
        else evalEquality f expr context
      else evalEquality f expr context
    else evalEquality f expr context

/-- `evalEquality`: `==` then `!=`, loose equality, taking the first two
top-level segments. -/
def evalEquality : Nat → List Char → Value → Value
  | 0, _, _ => Value.null
  | f + 1, expr, context =>
    match
      (if includesL expr ['=', '='] then splitByTopLevel expr ['=', '=']
       else [expr]) with
    | l :: r :: _ =>
      Value.bool (jsEq (evalComparison f l context) (evalComparison f r context))
    | _ =>
      match
        (if includesL expr ['!', '='] then splitByTopLevel expr ['!', '=']
         else [expr]) with
      | l :: r :: _ =>
        Value.bool
          (!jsEq (evalComparison f l context) (evalComparison f r context))
      | _ => evalComparison f expr context

/-- `evalComparison`: `>=`, `<=`, `>`, `<`, checked in that order. -/
def evalComparison : Nat → List Char → Value → Value
  | 0, _, _ => Value.null
  | f + 1, expr, context =>
    match
      (if includesL expr ['>', '='] then splitByTopLevel expr ['>', '=']
       else [expr]) with
    | l :: r :: _ =>
      Value.bool (jsGE (evalValue f l context) (evalValue f r context))
    | _ =>
      match
        (if includesL expr ['<', '='] then splitByTopLevel expr ['<', '=']
         else [expr]) with
      | l :: r :: _ =>
        Value.bool (jsLE (evalValue f l context) (evalValue f r context))
      | _ =>
        match
          (if includesL expr ['>'] then splitByTopLevel expr ['>']
           else [expr]) with
        | l :: r :: _ =>
          Value.bool (jsGT (evalValue f l context) (evalValue f r context))
        | _ =>
          match
            (if includesL expr ['<'] then splitByTopLevel expr ['<']
             else [expr]) with
          | l :: r :: _ =>
            Value.bool (jsLT (evalValue f l context) (evalValue f r context))
          | _ => evalValue f expr context

/-- `evalValue`: parentheses, object literals, `+` concatenation, `!`,
trailing `??`, `?`-introduced builtin chains, string/number/keyword literals,
then variable resolution. -/
def evalValue : Nat → List Char → Value → Value
  | 0, _, _ => Value.null
  | f + 1, rawExpr, context =>
    let expr := trimL rawExpr
    if startsWithL expr ['('] ∧ endsWithL expr [')'] then
      evalLogical f (substringL expr 1 ((expr.length : Int) - 1)) context
    else if startsWithL expr [lbr] ∧ endsWithL expr [rbr] then
      let content := substringL expr 1 ((expr.length : Int) - 1)
      Value.obj (objLitProps f (splitByTopLevel content [',']) context VObj.nil)
    else
      match
        (if includesL expr ['+'] then splitByTopLevel expr ['+']
         else [expr]) with
      | p0 :: p1 :: ps =>
        Value.str (String.mk (concatFold f [] (p0 :: p1 :: ps) context))
      | _ =>
        if startsWithL expr ['!'] then
          Value.bool (!truthy (evalValue f (expr.drop 1) context))
        else if endsWithL expr ['?', '?'] then
          let varPath := trimL (removeFirstL expr ['?', '?'])
          Value.bool (existsTest (resolveVariable (String.mk varPath) context))
        else
          match
            (if includesL expr ['?'] then splitByTopLevel expr ['?']
             else [expr]) with
          | q0 :: q1 :: qs =>
            applyStages f
              (evaluateExpressionF f (Value.str (String.mk q0)) context)
              (q1 :: qs) context
          | _ =>
            if (startsWithL expr [dq] ∧ endsWithL expr [dq]) ∨
                (startsWithL expr [sq] ∧ endsWithL expr [sq]) then
              Value.str (String.mk (substringL expr 1 ((expr.length : Int) - 1)))
            else if isNumericL expr ∧ expr ≠ [] then
              Value.num ((jsNumber? expr).getD 0)
            else if expr = "true".data then Value.bool true
            else if expr = "false".data then Value.bool false
            else if expr = "null".data then Value.null
            else resolveVariable (String.mk expr) context

/-- The `reduce` of the `+` concatenation: starting from the empty string,
append each operand's string form (`null`/`undefined` render empty). -/
def concatFold : Nat → List Char → List (List Char) → Value → List Char
  | 0, _, _, _ => []
  | _, acc, [], _ => acc
  | f + 1, acc, p :: ps, context =>
    concatFold f (acc ++ concatPiece (evalValue f p context)) ps context

/-- Properties of an object literal: split on the first `:`; keys may be
quoted or bare; each value is a full expression; segments without `:` are
skipped; duplicate keys overwrite in place (JS property assignment). -/
def objLitProps : Nat → List (List Char) → Value → VObj → VObj
  | 0, _, _, acc => acc
  | _, [], _, acc => acc
  | f + 1, prop :: rest, context, acc =>
    objLitProps f rest context
      (if includesL prop [':'] then
        let colonIdx := (prop.takeWhile (· ≠ ':')).length
        let keyStr := trimL (prop.take colonIdx)
        let valStr := trimL (prop.drop (colonIdx + 1))
        let key :=
          if (startsWithL keyStr [dq] ∧ endsWithL keyStr [dq]) ∨
              (startsWithL keyStr [sq] ∧ endsWithL keyStr [sq]) then
            substringL keyStr 1 ((keyStr.length : Int) - 1)
          else keyStr
        objUpdate acc (String.mk key)
          (evaluateExpressionF f (Value.str (String.mk valStr)) context)
      else acc)

/-- The builtin-chain loop: apply each `?`-segment in order. -/
def applyStages : Nat → Value → List (List Char) → Value → Value
  | 0, _, _, _ => Value.null
  | _, val, [], _ => val
  | f + 1, val, p :: ps, context =>
    applyStages f (applyStage f val (trimL p) context) ps context

/-- One pipeline stage of the builtin chain (`?string`, `?size`,
`?has_content`, `?join(sep)`, `?split(sep)`, `?map(x -> body)`); unknown
stages pass the value through unchanged. -/
def applyStage : Nat → Value → List Char → Value → Value
  | 0, _, _, _ => Value.null
  | f + 1, val, part, context =>
    if part = "string".data then
      if truthy val then Value.str (jsToString val) else Value.str ""
    else if part = "size".data then
      match val with
      | Value.list xs => Value.num xs.length
      | Value.obj fs => Value.num fs.length
      | Value.str s => Value.num s.length
      | _ => Value.num 0
    else if part = "has_content".data then
      match val with
      | Value.null => Value.bool false
      | Value.undef => Value.bool false
      | Value.str s => Value.bool (decide (0 < s.length))
      | Value.list xs => Value.bool (decide (0 < xs.length))
      | Value.obj fs => Value.bool (decide (0 < fs.length))
      | _ => Value.bool true
    else if startsWithL part "join(".data ∧ endsWithL part [')'] then
      match val with
      | Value.list xs =>
        let content := substringL part 5 ((part.length : Int) - 1)
        let sep :=
          if (startsWithL content [sq] ∧ endsWithL content [sq]) ∨
              (startsWithL content [dq] ∧ endsWithL content [dq]) then
            substringL content 1 ((content.length : Int) - 1)
          else [',']
        Value.str (String.mk (jsJoinChars xs sep))
      | v => v
    else if startsWithL part "split(".data ∧ endsWithL part [')'] then
      match val with
      | Value.str s =>
        let content := substringL part 6 ((part.length : Int) - 1)
        let sep :=
          if (startsWithL content [sq] ∧ endsWithL content [sq]) ∨
              (startsWithL content [dq] ∧ endsWithL content [dq]) then
            substringL content 1 ((content.length : Int) - 1)
          else [',']
        Value.list (listV ((splitOnSubstr s.data sep).map fun cs =>
          Value.str (String.mk cs)))
      | v => v
    else if startsWithL part "map(".data ∧ endsWithL part [')'] then
      match val with
      | Value.list xs =>
        let argsContent := substringL part 4 ((part.length : Int) - 1)
        if includesL argsContent ['-', '>'] then
          let segs := (splitOnSubstr argsContent ['-', '>']).map trimL
          let varName := segs.getD 0 []
          let body := segs.getD 1 []
          Value.list (mapItems f xs (String.mk varName) (String.mk body) context)
        else Value.list xs
      | v => v
    else val

/-- The `val.map(item => ...)` of the `map` stage: each element is bound to
the mapping variable in a shallow overlay of the ambient context and the body
is evaluated as a full expression. -/
def mapItems : Nat → VList → String → String → Value → VList
  | 0, _, _, _, _ => VList.nil
  | _, VList.nil, _, _, _ => VList.nil
  | f + 1, VList.cons item items, varName, body, context =>
    VList.cons
      (evaluateExpressionF f (Value.str body) (objSet context varName item))
      (mapItems f items varName body context)

end

/-- Fuel sufficient for any call chain on the given input: each nesting level
consumes at most eight fuel and at least one character. -/
def exprFuel : Value → Nat
  | Value.str s => 8 * s.length + 16
  | _ => 1

/-- The public evaluator entry point. -/
def evaluateExpression (expression context : Value) : Value :=
  evaluateExpressionF (exprFuel expression) expression context

/-! ## The string interpolator -/

/-- Modelled from the spec: consume characters up to the brace that closes a
`$\x7b` opener, tracking nested brace depth; returns the enclosed text and the
remainder, or `none` when no closing brace balances. -/
def takeBalanced : Nat → List Char → List Char → Option (List Char × List Char)
  | _, _, [] => Option.none
  | d, acc, c :: rest =>
    if c = rbr then
      if d = 0 then some (acc.reverse, rest)
      else takeBalanced (d - 1) (c :: acc) rest
    else if c = lbr then takeBalanced (d + 1) (c :: acc) rest
    else takeBalanced d (c :: acc) rest

/-- Modelled from the spec: the stringified form of an interpolated result
(`Null`/`undefined` render as the empty string, as throughout the engine). -/
def displayValue : Value → String
  | Value.null => ""
  | Value.undef => ""
  | v => jsToString v

/-- Modelled from the spec: the scanner of `interpolateString`.  Scans for
`$\x7b...\x7d` regions in a balanced-brace-aware way, replaces each region by
the stringified result of evaluating its inside, and passes all other text
through unchanged (including a `$\x7b` with no balancing close).  The fuel
strictly decreases on every call while at least one character is consumed, so
the entry point's `length + 1` fuel makes the exhaustion branch unreachable. -/
def interpScanF : Nat → Value → List Char → List Char
  | 0, _, cs => cs
  | _ + 1, _, [] => []
  | f + 1, context, c :: rest =>
    if c = '$' then
      match rest with
      | c2 :: rest2 =>
        if c2 = lbr then
          match takeBalanced 0 [] rest2 with
          | some (inner, rest') =>
            (displayValue
                (evaluateExpression (Value.str (String.mk inner)) context)).data
              ++ interpScanF f context rest'
          | Option.none => c :: c2 :: rest2
        else c :: interpScanF f context rest
      | [] => [c]
    else c :: interpScanF f context rest

/-- Is the whole text exactly one `$\x7b...\x7d` placeholder? -/
def wholePlaceholder (cs : List Char) : Bool :=
  startsWithL cs ['$', lbr] &&
    match takeBalanced 0 [] (cs.drop 2) with
    | some (_, rest) => rest.isEmpty
    | Option.none => false

/-- Modelled from the spec: `interpolateString(text, context)`.  The function
is imported by the simulator from the expression-engine module, but its
definition is not among the provided sources; this follows §4.1c of the spec:
scan for `$\x7b...\x7d` regions (balanced-brace aware), replace each with the
stringified evaluation of its inside, pass other text through unchanged, and
evaluate a whole-string placeholder directly to preserve its raw value. -/
def interpolateString (text : String) (context : Value) : Value :=
  if wholePlaceholder text.data then
    evaluateExpression (Value.str text) context
  else
    Value.str (String.mk (interpScanF (text.data.length + 1) context text.data))

/-! ## The workflow interpreter (`WorkflowSimulator`)

State model for the simulator component: the execution stack (top frame
last, as in the source array), the context, the history of snapshots, the
`currentInputs` UI state and the `currentStep` view.  The React effect that
processes the stack is modelled by `flowStep` (one pass of `processFlow`,
i.e. one state change) and `settle` (running the effect loop).  Deep clones
(`JSON.parse(JSON.stringify(...))`) are modelled as the identity: the modelled
contexts contain no `undefined` entries and no `Date` objects, on which the
JSON round-trip is the identity. -/

/-- An input field of a `user_interaction` node.  Only the `optional`
attribute is consulted by the modelled operations; it is `undef` when absent
(`f.attributes?.optional`). -/
structure Field where
  name : String
  ftype : String
  attrOptional : Value

/-- A workflow node, dispatched on its `type` string in the source; `unknown`
covers every unrecognised type. -/
inductive Node where
  | userInteraction (id : String) (prompt : Value) (fields : List Field)
      (ended : Bool)
  | apiCall (id : String) (apiName : String) (responseVar : String)
      (ended : Bool)
  | decision (id : String) (expression : Value) (ifBlock elseBlock : List Node)
  | whileLoop (id : String) (expression : Value) (actions : List Node)
  | doWhile (id : String) (expression : Value) (actions : List Node)
  | unknown (ntype : String) (id : String)

/-- `node.expression?.['en-US'] || node.expression`: resolve the `en-US`
entry of a localized text, falling back to the raw value. -/
def localize (v : Value) : Value :=
  let e := objLookup v "en-US"
  if truthy e then e else v

/-- Frame kinds: `'root'`, `'decision_block'`, `'loop_block'`. -/
inductive FrameKind where
  | root
  | decisionBlock
  | loopBlock
deriving DecidableEq

/-- One execution frame `\x7b nodes, index, type, expression \x7d`;
`expression` is `undef` except for loop frames. -/
structure Frame where
  nodes : List Node
  index : Nat
  kind : FrameKind
  expression : Value

/-- Increment the top (last) frame's index
(`newStack[newStack.length - 1].index++`). -/
def incTop : List Frame → List Frame
  | [] => []
  | [fr] => [{ fr with index := fr.index + 1 }]
  | fr :: rest => fr :: incTop rest

/-- Reset the top (last) frame's index to 0 (loop re-entry). -/
def resetTop : List Frame → List Frame
  | [] => []
  | [fr] => [{ fr with index := 0 }]
  | fr :: rest => fr :: resetTop rest

/-- Result of one pass of the `processFlow` effect: a stack update (the
effect re-runs), a halt at an interactive node, completion, a silent stall on
an unrecognised node type, or idleness on an empty stack. -/
inductive FlowResult where
  | updStack (stack : List Frame)
  | halt (n : Node)
  | completed
  | stall (ntype : String)
  | idle

/-- One pass of `processFlow`: examine the top frame; on exhaustion either
re-enter a loop, pop to the parent, or complete; otherwise expand the current
node (decisions and loops) or halt at an interactive node.  A node of
unrecognised type matches none of the branches: the effect body simply ends
with no state change and no error (`stall`). -/
def flowStep (stack : List Frame) (context : Value) : FlowResult :=
  match stack.getLast? with
  | Option.none => FlowResult.idle
  | some ptr =>
    if ptr.nodes.length ≤ ptr.index then
      if ptr.kind = FrameKind.loopBlock ∧
          truthy (evaluateExpression ptr.expression context) then
        FlowResult.updStack (resetTop stack)
      else if 1 < stack.length then
        FlowResult.updStack (incTop stack.dropLast)
      else FlowResult.completed
    else
      match ptr.nodes.getD ptr.index (Node.unknown "" "") with
      | Node.decision _ e ifb elseb =>
        let result := truthy (evaluateExpression (localize e) context)
        let block := if result then ifb else elseb
        if 0 < block.length then
          FlowResult.updStack
            (stack ++ [⟨block, 0, FrameKind.decisionBlock, Value.undef⟩])
        else FlowResult.updStack (incTop stack)
      | Node.whileLoop _ e actions =>
        let expr := localize e
        if truthy (evaluateExpression expr context) then
          FlowResult.updStack (stack ++ [⟨actions, 0, FrameKind.loopBlock, expr⟩])
        else FlowResult.updStack (incTop stack)
      | Node.doWhile _ e actions =>
        FlowResult.updStack
          (stack ++ [⟨actions, 0, FrameKind.loopBlock, localize e⟩])
      | Node.userInteraction i p fl en =>
        FlowResult.halt (Node.userInteraction i p fl en)
      | Node.apiCall i a r en => FlowResult.halt (Node.apiCall i a r en)
      | Node.unknown t _ => FlowResult.stall t

/-- The `currentStep` view: `null`, a halted node, or the completion marker
`\x7b ended: true, type: 'end' \x7d`. -/
inductive StepView where
  | none
  | node (n : Node)
  | ended

/-- A history snapshot: deep copies of the stack and the context. -/
structure Snapshot where
  stack : List Frame
  context : Value

/-- The simulator's state. -/
structure SimState where
  stack : List Frame
  context : Value
  history : List Snapshot
  currentInputs : Value
  currentStep : StepView

/-- The context installed by `resetSimulation`. -/
def initContext (now : Value) : Value :=
  Value.obj (objV
    [("replies", Value.obj VObj.nil),
     ("api_responses", Value.obj VObj.nil),
     ("now", now)])

/-- `resetSimulation`: a single root frame over the workflow, a fresh context,
empty history and inputs.  `currentStep` is not reset by the source (the
effect recomputes it). -/
def resetSimulation (workflow : List Node) (now : Value) (s : SimState) :
    SimState :=
  { stack := [⟨workflow, 0, FrameKind.root, Value.undef⟩]
    context := initContext now
    history := []
    currentInputs := Value.obj VObj.nil
    currentStep := s.currentStep }

/-- The component state before the first reset. -/
def mountState : SimState :=
  { stack := []
    context := Value.obj VObj.nil
    history := []
    currentInputs := Value.obj VObj.nil
    currentStep := StepView.none }

/-- `0` as a JS value, for the strict `!== 0` comparison. -/
def isJsZero : Value → Bool
  | Value.num n => n == 0
  | _ => false

/-- The required-field check of `handleNext`:
`!f.attributes?.optional && !currentInputs[f.name] && currentInputs[f.name]
!== 0`. -/
def missingRequired (fields : List Field) (inputs : Value) : Bool :=
  fields.any fun f =>
    !truthy f.attrOptional && !truthy (objLookup inputs f.name) &&
      !isJsZero (objLookup inputs f.name)

/-- `nextContext.replies[name] = v` (context and its `replies` are objects in
every modelled state). -/
def setReply (ctx : Value) (name : String) (v : Value) : Value :=
  objSet ctx "replies" (objSet (objLookup ctx "replies") name v)

/-- One iteration of the merge loop of `handleNext`:
`if (currentInputs[field.name] !== undefined) nextContext.replies[field.name]
= currentInputs[field.name]`. -/
def mergeStep (inputs c : Value) (f : Field) : Value :=
  match objLookup inputs f.name with
  | Value.undef => c
  | v => setReply c f.name v

/-- The merge loop of `handleNext`: for each field of the step, copy the
input entry into `replies` when it is not `undefined`. -/
def mergeReplies (ctx : Value) (fields : List Field) (inputs : Value) : Value :=
  fields.foldl (mergeStep inputs) ctx

/-- Errors surfaced by `handleNext` (`alert` + early return in the source). -/
inductive SimError where
  | validationError
  | invalidPayloadError
deriving DecidableEq

/-- Steps 3–4 of `handleNext`: push a snapshot of the *pre-increment* stack
together with the *updated* context, install the updated context, and
increment the top frame's index. -/
def advanceWith (s : SimState) (nextContext : Value) : SimState :=
  { s with
    context := nextContext
    history := s.history ++ [⟨s.stack, nextContext⟩]
    stack := incTop s.stack }

/-- `handleNext`: validates and merges inputs at a `user_interaction` step,
stores the parsed mock payload at an `api_call` step (`mockPayload = none`
models unparseable editor text), then snapshots and advances.  On an error the
state is left unchanged (the source alerts and returns). -/
def handleNext (s : SimState) (apiNameInput : String)
    (mockPayload : Option Value) : Except SimError SimState :=
  match s.currentStep with
  | StepView.none => Except.ok s
  | StepView.node (Node.userInteraction _ _ fields _) =>
    if missingRequired fields s.currentInputs then
      Except.error SimError.validationError
    else Except.ok (advanceWith s (mergeReplies s.context fields s.currentInputs))
  | StepView.node (Node.apiCall _ _ _ _) =>
    match mockPayload with
    | Option.none => Except.error SimError.invalidPayloadError
    | some payload =>
      let name := if apiNameInput = "" then "unknown_api" else apiNameInput
      Except.ok (advanceWith s
        (objSet s.context "api_responses"
          (objSet (objLookup s.context "api_responses") name payload)))
  | _ => Except.ok (advanceWith s s.context)

/-- `submitUserInput(values)`: the user types `values` into the halted
`user_interaction` step and presses Next. -/
def submitUserInput (s : SimState) (values : Value) : Except SimError SimState :=
  handleNext { s with currentInputs := values } "" Option.none

/-- `handleBack`: restore the most recent snapshot's stack, restore its
context with the current inputs merged in when halted at a
`user_interaction`, and pop the snapshot.  With empty history nothing happens
(the source's button is disabled). -/
def handleBack (s : SimState) : SimState :=
  match s.history.getLast? with
  | Option.none => s
  | some prev =>
    let contextToRestore :=
      match s.currentStep with
      | StepView.node (Node.userInteraction _ _ fields _) =>
        mergeReplies prev.context fields s.currentInputs
      | _ => prev.context
    { s with
      stack := prev.stack
      context := contextToRestore
      history := s.history.dropLast }

/-- One iteration of the rehydration loop: keep a saved reply if present. -/
def restrictStep (ctx acc : Value) (f : Field) : Value :=
  match objLookup (objLookup ctx "replies") f.name with
  | Value.undef => acc
  | v => objSet acc f.name v

/-- The rehydration effect: when halted at a `user_interaction`, rebuild
`currentInputs` from the saved `replies` entries of the step's fields. -/
def restrictReplies (ctx : Value) (fields : List Field) : Value :=
  fields.foldl (restrictStep ctx) (Value.obj VObj.nil)

/-- The `useEffect` on `currentStep`/`context.replies` as it affects the
model: restore inputs for a halted `user_interaction`. -/
def rehydrateInputs (s : SimState) : SimState :=
  match s.currentStep with
  | StepView.node (Node.userInteraction _ _ fields _) =>
    { s with currentInputs := restrictReplies s.context fields }
  | _ => s

/-- Run the `processFlow` effect loop: apply `flowStep` until it halts,
completes, stalls or runs out of fuel (a workflow loop whose condition never
becomes false re-runs the effect forever in the source; the fuel makes the
model total). -/
def settle : Nat → SimState → SimState
  | 0, s => s
  | f + 1, s =>
    match flowStep s.stack s.context with
    | FlowResult.updStack st => settle f { s with stack := st }
    | FlowResult.halt n => rehydrateInputs { s with currentStep := StepView.node n }
    | FlowResult.completed => { s with currentStep := StepView.ended }
    | FlowResult.stall _ => s
    | FlowResult.idle => s

/-- States reachable from a mount/reset by effect passes, successful submits
(only available when the view agrees with the halted node, as the footer
buttons do), input typing and Back presses. -/
inductive Reach : SimState → Prop where
  | init (workflow : List Node) (now : Value) (hwf : workflow ≠ []) :
      Reach (resetSimulation workflow now mountState)
  | reset (s : SimState) (workflow : List Node) (now : Value)
      (hwf : workflow ≠ []) :
      Reach s → Reach (resetSimulation workflow now s)
  | auto (s : SimState) (st : List Frame) :
      Reach s → flowStep s.stack s.context = FlowResult.updStack st →
      Reach { s with stack := st }
  | haltView (s : SimState) (n : Node) :
      Reach s → flowStep s.stack s.context = FlowResult.halt n →
      Reach (rehydrateInputs { s with currentStep := StepView.node n })
  | completeView (s : SimState) :
      Reach s → flowStep s.stack s.context = FlowResult.completed →
      Reach { s with currentStep := StepView.ended }
  | typing (s : SimState) (values : Value) :
      Reach s → Reach { s with currentInputs := values }
  | submit (s s' : SimState) (n : Node) (apiName : String)
      (payload : Option Value) (values : Value) :
      Reach s →
      flowStep s.stack s.context = FlowResult.halt n →
      s.currentStep = StepView.node n →
      handleNext { s with currentInputs := values } apiName payload =
        Except.ok s' →
      Reach s'
  | back (s : SimState) : Reach s → Reach (handleBack s)

/-! ## Claim C2: pass-through of non-string inputs -/

/-- C2 (counterexample): `evaluateExpression` does *not* return every
non-string input unchanged: the falsy inputs `false` and `0` are turned into
`null` by the `if (!expression) return null` guard, which runs before the
`typeof` check. -/
theorem evaluateExpression_falsy_not_passthrough :
    evaluateExpression (Value.bool false) (Value.obj VObj.nil) = Value.null ∧
    evaluateExpression (Value.num 0) (Value.obj VObj.nil) = Value.null ∧
    evaluateExpression (Value.bool false) (Value.obj VObj.nil) ≠
      Value.bool false :=
  ⟨rfl, rfl, fun h => Value.noConfusion h⟩

/-- C2 (amended): a non-string input passes through unchanged exactly when it
is truthy; the falsy non-string inputs (`undefined`, `null`, `false`, `0`)
yield `null` (so `null` itself is still returned unchanged). -/
theorem evaluateExpression_nonstring (v context : Value)
    (hns : ∀ s, v ≠ Value.str s) :
    evaluateExpression v context = if truthy v then v else Value.null := by
  cases v with
  | str s => exact absurd rfl (hns s)
  | undef => rfl
  | null => rfl
  | bool b => cases b <;> rfl
  | num n =>
    by_cases hn : n = 0
    · subst hn; rfl
    · show evaluateExpressionF 1 _ _ = _
      simp [evaluateExpressionF, truthy, hn]
  | list xs => rfl
  | obj fs => rfl

/-- C2 witness: the theorem applied to a concrete truthy list. -/
theorem evaluateExpression_nonstring_witness :
    evaluateExpression (Value.list (listV [Value.num 1])) (Value.obj VObj.nil) =
      (if truthy (Value.list (listV [Value.num 1])) then
        Value.list (listV [Value.num 1])
      else Value.null) :=
  evaluateExpression_nonstring (Value.list (listV [Value.num 1]))
    (Value.obj VObj.nil) (fun _ h => Value.noConfusion h)

/-! ## Claim C4: the `?string` pipeline stage -/

/-- C4 (counterexample): the `?string` stage is `val ? String(val) : ""`, so
*every* falsy value — not only `Null`/`undefined` — renders as the empty
string: `0?string` gives `""` (not `"0"`) and `false?string` gives `""` (not
`"false"`). -/
theorem stringStage_falsy_counterexample :
    evaluateExpression (Value.str "0?string") (Value.obj VObj.nil) =
      Value.str "" ∧
    evaluateExpression (Value.str "false?string") (Value.obj VObj.nil) =
      Value.str "" ∧
    Value.str "" ≠ Value.str "0" :=
  ⟨rfl, rfl, fun h => by simpa using Value.str.inj h⟩

/-- C4 (amended): the `?string` stage stringifies truthy values and sends
every falsy value (`Null`, `undefined`, `false`, `0`, the empty string) to
the empty string. -/
theorem stringStage_spec (f : Nat) (val context : Value) :
    applyStage (f + 1) val "string".data context =
      (if truthy val then Value.str (jsToString val) else Value.str "") := by
  simp [applyStage]

/-! ## Claim C5: `resolveVariable` -/

/-- The empty context used by concrete counterexamples. -/
def emptyReplies : Value := Value.obj (objV [("replies", Value.obj VObj.nil)])

/-- C5 (counterexample): the `null`-check runs at the start of each step, so a
miss at the *final* path component is returned as `undefined`, not `Null`;
only a miss strictly before the last component yields `Null`. -/
theorem resolveVariable_final_miss_counterexample :
    resolveVariable "replies.missing" emptyReplies = Value.undef ∧
    resolveVariable "replies.missing.x" emptyReplies = Value.null ∧
    Value.undef ≠ Value.null :=
  ⟨rfl, rfl, fun h => Value.noConfusion h⟩

/-- C5 (amended): `resolveVariable` splits on `.` and walks the context,
returning `Null` as soon as the *current* value is `Null`/missing at the start
of a step; a miss at the final component is the final lookup's result,
`undefined`, with no partial-path error. -/
theorem resolveVariable_walk :
    (∀ path context,
      resolveVariable path context =
        resolveParts context (splitCharL '.' path.data)) ∧
    (∀ cur, resolveParts cur [] = cur) ∧
    (∀ cur p rest, cur = Value.null ∨ cur = Value.undef →
      resolveParts cur (p :: rest) = Value.null) ∧
    (∀ fs p, lookupA fs (String.mk p) = Value.undef →
      resolveParts (Value.obj fs) [p] = Value.undef) ∧
    (∀ fs p q rest, lookupA fs (String.mk p) = Value.undef →
      resolveParts (Value.obj fs) (p :: q :: rest) = Value.null) := by
  refine ⟨fun _ _ => rfl, fun _ => rfl, ?_, ?_, ?_⟩
  · rintro cur p rest (rfl | rfl) <;> rfl
  · intro fs p h
    show resolveParts (jsGetPart (Value.obj fs) p) [] = Value.undef
    simp [jsGetPart, h, resolveParts]
  · intro fs p q rest h
    show resolveParts (jsGetPart (Value.obj fs) p) (q :: rest) = Value.null
    simp [jsGetPart, h, resolveParts]

/-- C5 witness: the walk lemmas applied to concrete inputs. -/
theorem resolveVariable_walk_witness :
    resolveParts (Value.obj VObj.nil) ["missing".data] = Value.undef ∧
    resolveParts (Value.obj VObj.nil) ["missing".data, "x".data] =
      Value.null :=
  ⟨resolveVariable_walk.2.2.2.1 VObj.nil "missing".data rfl,
   resolveVariable_walk.2.2.2.2 VObj.nil "missing".data "x".data [] rfl⟩

/-! ## Claim C7: unrecognised node types -/

/-- C7: a node whose `type` matches none of the recognised variants falls
through every branch of `processFlow`: the effect ends with no state change,
no current-step update and no error — the run silently stalls rather than
surfacing a fatal error, contradicting the spec's `UnreachableNodeError`
requirement. -/
theorem unknownNode_silently_stalls :
    flowStep [⟨[Node.unknown "noop" "n1"], 0, FrameKind.root, Value.undef⟩]
        (initContext (Value.str "t")) = FlowResult.stall "noop" ∧
    (∀ f, settle f
        (resetSimulation [Node.unknown "noop" "n1"] (Value.str "t") mountState) =
      resetSimulation [Node.unknown "noop" "n1"] (Value.str "t") mountState) :=
  ⟨rfl, fun f => by cases f <;> rfl⟩

/-! ## Claim C8: `DoWhile` semantics -/

/-- C8: a `do_while` node *unconditionally* pushes a loop frame over its
actions at index 0 — the same stack results for every context, so the loop
expression is not consulted on entry — and for an exhausted loop frame the
loop expression is evaluated only then: index reset to 0 when truthy,
otherwise pop-and-advance-parent (or completion at the root).  Hence the body
runs at least once even when the condition is false at the first check. -/
theorem doWhile_push_and_exit_check :
    (∀ stack context ys fr id e actions,
      stack = ys ++ [fr] →
      fr.index < fr.nodes.length →
      fr.nodes.getD fr.index (Node.unknown "" "") = Node.doWhile id e actions →
      flowStep stack context =
        FlowResult.updStack
          (stack ++ [⟨actions, 0, FrameKind.loopBlock, localize e⟩])) ∧
    (∀ stack context ys fr,
      stack = ys ++ [fr] →
      fr.nodes.length ≤ fr.index →
      fr.kind = FrameKind.loopBlock →
      flowStep stack context =
        if truthy (evaluateExpression fr.expression context) then
          FlowResult.updStack (resetTop stack)
        else if 1 < stack.length then
          FlowResult.updStack (incTop stack.dropLast)
        else FlowResult.completed) := by
  constructor
  · intro stack context ys fr id e actions hdec hidx hnode
    subst hdec
    simp only [flowStep, List.getLast?_concat]
    rw [if_neg (not_le.mpr hidx), hnode]
  · intro stack context ys fr hdec hlen hkind
    subst hdec
    simp only [flowStep, List.getLast?_concat]
    rw [if_pos hlen]
    by_cases ht : truthy (evaluateExpression fr.expression context) = true
    · rw [if_pos ⟨hkind, ht⟩, if_pos ht]
    · rw [if_neg (fun hc => ht hc.2), if_neg ht]

/-- C8 witness: the theorem applied to a concrete root frame holding one
`do_while` node whose condition is `false`, and to the pushed loop frame once
exhausted. -/
theorem doWhile_push_and_exit_check_witness :
    flowStep [⟨[Node.doWhile "w1" (Value.str "false") []], 0, FrameKind.root,
        Value.undef⟩] (initContext (Value.str "t")) =
      FlowResult.updStack
        [⟨[Node.doWhile "w1" (Value.str "false") []], 0, FrameKind.root,
          Value.undef⟩,
         ⟨[], 0, FrameKind.loopBlock, Value.str "false"⟩] ∧
    flowStep [⟨[], 3, FrameKind.loopBlock, Value.str "false"⟩]
        (initContext (Value.str "t")) =
      (if truthy (evaluateExpression (Value.str "false")
          (initContext (Value.str "t"))) then
        FlowResult.updStack
          (resetTop [⟨[], 3, FrameKind.loopBlock, Value.str "false"⟩])
      else if 1 <
          ([⟨[], 3, FrameKind.loopBlock, Value.str "false"⟩] :
            List Frame).length then
        FlowResult.updStack
          (incTop ([⟨[], 3, FrameKind.loopBlock, Value.str "false"⟩] :
            List Frame).dropLast)
      else FlowResult.completed) :=
  ⟨doWhile_push_and_exit_check.1
      [⟨[Node.doWhile "w1" (Value.str "false") []], 0, FrameKind.root,
        Value.undef⟩]
      (initContext (Value.str "t")) []
      ⟨[Node.doWhile "w1" (Value.str "false") []], 0, FrameKind.root,
        Value.undef⟩
      "w1" (Value.str "false") [] rfl (by decide) rfl,
   doWhile_push_and_exit_check.2
      [⟨[], 3, FrameKind.loopBlock, Value.str "false"⟩]
      (initContext (Value.str "t")) []
      ⟨[], 3, FrameKind.loopBlock, Value.str "false"⟩
      rfl (by decide) rfl⟩

/-! ## Claim C6: required-field validation -/

/-- The concrete states used by the validation counterexample and witness. -/
def c6Field : Field := ⟨"x", "text", Value.undef⟩
/-- A one-step workflow with a single required text field. -/
def c6Node : Node := Node.userInteraction "u6" (Value.str "p") [c6Field] false
/-- The simulator halted at that step. -/
def c6State : SimState :=
  settle 10 (resetSimulation [c6Node] (Value.str "t") mountState)

/-- C6 (counterexample): the check is `!currentInputs[f.name] &&
currentInputs[f.name] !== 0`, a falsiness test, not a presence test: an entry
that is *present* with value `false` (or `""`) still fails validation. -/
theorem validation_rejects_present_falsy :
    objLookup (Value.obj (objV [("x", Value.bool false)])) "x" =
      Value.bool false ∧
    submitUserInput c6State (Value.obj (objV [("x", Value.bool false)])) =
      Except.error SimError.validationError :=
  ⟨rfl, rfl⟩

/-- `isJsZero v = false` is exactly `v ≠ 0`. -/
theorem isJsZero_eq_false_iff (v : Value) :
    isJsZero v = false ↔ v ≠ Value.num 0 := by
  cases v <;> simp [isJsZero]

/-- The validation predicate, spelled out. -/
theorem missingRequired_iff (fields : List Field) (values : Value) :
    missingRequired fields values = true ↔
      ∃ f ∈ fields, truthy f.attrOptional = false ∧
        truthy (objLookup values f.name) = false ∧
        objLookup values f.name ≠ Value.num 0 := by
  simp [missingRequired, List.any_eq_true, isJsZero_eq_false_iff, and_assoc]

/-- C6 (amended): at a halted `user_interaction`, `submitUserInput` fails
with `ValidationError` iff some field whose `optional` attribute is falsy has
a falsy entry other than the number `0` in the values map — a present entry
holding `false`, `null` or the empty string *does* cause failure, while an
absent entry never passes and `0` always passes; otherwise it merges and
advances.  (On failure the source alerts and returns before any state
update, so stack, context and history are unchanged.) -/
theorem submitUserInput_validation (s : SimState) (values : Value)
    (id : String) (p : Value) (fields : List Field) (en : Bool)
    (hstep : s.currentStep =
      StepView.node (Node.userInteraction id p fields en)) :
    (submitUserInput s values = Except.error SimError.validationError ↔
      ∃ f ∈ fields, truthy f.attrOptional = false ∧
        truthy (objLookup values f.name) = false ∧
        objLookup values f.name ≠ Value.num 0) ∧
    (missingRequired fields values = false →
      submitUserInput s values =
        Except.ok (advanceWith { s with currentInputs := values }
          (mergeReplies s.context fields values))) := by
  have hunfold : submitUserInput s values =
      (if missingRequired fields values then
        Except.error SimError.validationError
      else
        Except.ok (advanceWith { s with currentInputs := values }
          (mergeReplies s.context fields values))) := by
    simp [submitUserInput, handleNext, hstep]
  constructor
  · rw [hunfold, ← missingRequired_iff]
    by_cases hm : missingRequired fields values = true
    · simp [hm]
    · simp [hm]
  · intro hfalse
    rw [hunfold, if_neg (by simp [hfalse])]

/-- C6 witness: the amended theorem applied at the concrete halted state with
a present-but-`false` entry. -/
theorem submitUserInput_validation_witness :
    (submitUserInput c6State (Value.obj (objV [("x", Value.bool false)])) =
        Except.error SimError.validationError ↔
      ∃ f ∈ [c6Field], truthy f.attrOptional = false ∧
        truthy (objLookup (Value.obj (objV [("x", Value.bool false)]))
          f.name) = false ∧
        objLookup (Value.obj (objV [("x", Value.bool false)])) f.name ≠
          Value.num 0) :=
  (submitUserInput_validation c6State
    (Value.obj (objV [("x", Value.bool false)])) "u6" (Value.str "p")
    [c6Field] false rfl).1

/-! ## Claim C3: the `?then` matcher -/

/-- C3 (counterexample): the matcher uses plain `lastIndexOf('?then(')`, not a
structure-aware search, so an occurrence nested inside brackets *is*
selected: `(true?then(1,2))` is torn apart at the nested `?then(` (prefix
`(true`, args `1` and `2)`), resolving to `undefined`, whereas the
properly-nested reading — taken when the parentheses are absent — gives `1`. -/
theorem ternary_nested_occurrence_selected :
    evaluateExpression (Value.str "(true?then(1,2))") (Value.obj VObj.nil) =
      Value.undef ∧
    evaluateExpression (Value.str "true?then(1,2)") (Value.obj VObj.nil) =
      Value.num 1 ∧
    Value.undef ≠ Value.num 1 :=
  ⟨rfl, rfl, fun h => Value.noConfusion h⟩

/-- C3 (amended): when the literal substring `?then(` occurs anywhere — with
no structure-awareness in the *selection* — the matcher takes its **last**
occurrence, requires a nonzero prefix, a trailing `)` and exactly two
comma-separated arguments (this splitting *is* bracket/quote aware), then
evaluates the prefix as a logical condition and exactly one of the two
arguments, each recursing into the same `?then` precedence level.  The
equations show the result depends only on the taken argument (laziness). -/
theorem evalTernary_last_occurrence (f : Nat) (expr : List Char)
    (context : Value) (a b : List Char)
    (hinc : includesL expr "?then".data = true)
    (hidx : lastIndexOfL expr "?then(".data > 0)
    (hend : endsWithL (substringFromL expr (lastIndexOfL expr "?then(".data))
      [')'] = true)
    (hargs : splitByTopLevel
        (substringL (substringFromL expr (lastIndexOfL expr "?then(".data)) 6
          (((substringFromL expr
            (lastIndexOfL expr "?then(".data)).length : Int) - 1))
        [','] = [a, b]) :
    (truthy (evalLogical f
        (trimL (substringL expr 0 (lastIndexOfL expr "?then(".data)))
          context) = true →
      evalTernary (f + 1) expr context = evalTernary f a context) ∧
    (truthy (evalLogical f
        (trimL (substringL expr 0 (lastIndexOfL expr "?then(".data)))
          context) = false →
      evalTernary (f + 1) expr context = evalTernary f b context) := by
  constructor <;> intro hc <;>
    simp [evalTernary, hinc, hidx, hend, hargs, hc]

/-- C3 witness: the matcher equations at `true?then('x', bad.path)` (condition
true, so only the first argument is evaluated), plus the end-to-end fact that
the untaken unresolvable branch does not surface. -/
theorem evalTernary_last_occurrence_witness :
    evalTernary 101 "true?then('x', bad.path)".data (Value.obj VObj.nil) =
      evalTernary 100 "'x'".data (Value.obj VObj.nil) ∧
    evaluateExpression (Value.str "true?then('x', bad.path)")
      (Value.obj VObj.nil) = Value.str "x" :=
  ⟨(evalTernary_last_occurrence 100 "true?then('x', bad.path)".data
      (Value.obj VObj.nil) "'x'".data "bad.path".data rfl (by decide) rfl
      rfl).1 rfl,
   rfl⟩

/-! ## Claim C9: the string interpolator -/

/-- Does the text contain a `$\x7b` placeholder opener? -/
def hasPlaceholder : List Char → Bool
  | [] => false
  | c :: rest => (c = '$' && startsWithL rest [lbr]) || hasPlaceholder rest

/-- Text without a placeholder opener passes through the scanner unchanged,
at every fuel. -/
theorem interpScanF_no_placeholder (context : Value) :
    ∀ (f : Nat) (cs : List Char), hasPlaceholder cs = false →
      interpScanF f context cs = cs := by
  intro f
  induction f with
  | zero => intro cs _; rfl
  | succ g ih =>
    intro cs h
    cases cs with
    | nil => rfl
    | cons c rest =>
      simp only [hasPlaceholder, Bool.or_eq_false_iff, Bool.and_eq_false_iff]
        at h
      obtain ⟨h1, h2⟩ := h
      by_cases hc : c = '$'
      · cases rest with
        | nil => simp [interpScanF, hc]
        | cons c2 rest2 =>
          have hc2 : (c2 = lbr) = False := by
            rcases h1 with h1 | h1
            · simp [hc] at h1
            · simp only [startsWithL, Bool.and_eq_false_iff,
                decide_eq_false_iff_not] at h1
              rcases h1 with h1 | h1
              · simp [h1]
              · simp at h1
          simp [interpScanF, hc, hc2, ih _ h2]
      · simp [interpScanF, hc, ih _ h2]

/-- A balanced placeholder region after non-placeholder text is replaced by
the stringified evaluation of its inside, with exactly the fuel of the
consumed text spent. -/
theorem interpScanF_placeholder (context : Value) (inner post : List Char)
    (hbal : takeBalanced 0 [] (inner ++ rbr :: post) = some (inner, post)) :
    ∀ (pre : List Char) (f : Nat), hasPlaceholder pre = false →
      interpScanF (pre.length + 1 + f) context
          (pre ++ '$' :: lbr :: (inner ++ rbr :: post)) =
        pre ++ (displayValue (evaluateExpression (Value.str (String.mk inner))
          context)).data ++ interpScanF f context post := by
  intro pre
  induction pre with
  | nil =>
    intro f _
    have hfuel : ([] : List Char).length + 1 + f = f + 1 := by
      simp only [List.length_nil]; omega
    rw [hfuel]
    simp [interpScanF, hbal, lbr]
  | cons c pre' ih =>
    intro f hp
    have hfuel : (c :: pre').length + 1 + f = (pre'.length + 1 + f) + 1 := by
      simp only [List.length_cons]; omega
    rw [hfuel]
    simp only [hasPlaceholder, Bool.or_eq_false_iff, Bool.and_eq_false_iff]
      at hp
    obtain ⟨h1, h2⟩ := hp
    by_cases hc : c = '$'
    · cases pre' with
      | nil =>
        -- the remaining text starts with the placeholder's own `$`
        have hne : ¬('$' = lbr) := by simp [lbr, Char.ext_iff]
        subst hc
        simp only [List.nil_append, List.cons_append, List.length_nil]
        simp only [interpScanF]
        rw [if_pos trivial, if_neg hne]
        have h3 := ih f rfl
        simp only [List.length_nil, List.nil_append] at h3
        rw [h3]
      | cons c2 rest2 =>
        have hc2 : (c2 = lbr) = False := by
          rcases h1 with h1 | h1
          · simp [hc] at h1
          · simp only [startsWithL, Bool.and_eq_false_iff,
              decide_eq_false_iff_not] at h1
            rcases h1 with h1 | h1
            · simp [h1]
            · simp at h1
        simp only [List.cons_append]
        simp only [interpScanF]
        rw [if_pos hc, if_neg (by simp [hc2])]
        have h3 := ih f h2
        simp only [List.length_cons, List.cons_append] at h3 ⊢
        rw [h3]
    · simp only [List.cons_append]
      simp only [interpScanF]
      rw [if_neg hc]
      rw [ih f h2]

/-- A whole-string placeholder implies a placeholder opener. -/
theorem wholePlaceholder_hasPlaceholder (cs : List Char)
    (h : wholePlaceholder cs = true) : hasPlaceholder cs = true := by
  cases cs with
  | nil => simp [wholePlaceholder, startsWithL] at h
  | cons c rest =>
    cases rest with
    | nil => simp [wholePlaceholder, startsWithL] at h
    | cons c2 rest2 =>
      simp only [wholePlaceholder, Bool.and_eq_true, startsWithL,
        decide_eq_true_eq] at h
      simp [hasPlaceholder, startsWithL, h.1.1, h.1.2.1]

/-- C9 (spec-modelled): `interpolateString(text, context)` scans for
`$\x7b...\x7d` regions in a balanced-brace-aware way, replaces each with the
stringified result of evaluating the inside against the context, and passes
all non-placeholder text through unchanged (a whole-string placeholder is
instead evaluated directly, preserving the raw value). -/
theorem interpolateString_spec :
    (∀ (text : String) (context : Value), hasPlaceholder text.data = false →
      interpolateString text context = Value.str text) ∧
    (∀ (context : Value) (pre inner post : List Char) (f : Nat),
      hasPlaceholder pre = false →
      takeBalanced 0 [] (inner ++ rbr :: post) = some (inner, post) →
      interpScanF (pre.length + 1 + f) context
          (pre ++ '$' :: lbr :: (inner ++ rbr :: post)) =
        pre ++ (displayValue (evaluateExpression (Value.str (String.mk inner))
          context)).data ++ interpScanF f context post) ∧
    (∀ (text : String) (context : Value),
      interpolateString text context =
        if wholePlaceholder text.data then
          evaluateExpression (Value.str text) context
        else
          Value.str (String.mk
            (interpScanF (text.data.length + 1) context text.data))) := by
  refine ⟨?_, ?_, fun _ _ => rfl⟩
  · intro text context h
    have hw : wholePlaceholder text.data = false := by
      rcases hwp : wholePlaceholder text.data with _ | _
      · rfl
      · rw [wholePlaceholder_hasPlaceholder _ hwp] at h; exact absurd h (by simp)
    rw [show interpolateString text context =
        (if wholePlaceholder text.data then
          evaluateExpression (Value.str text) context
        else
          Value.str (String.mk
            (interpScanF (text.data.length + 1) context text.data))) from rfl,
      hw]
    simp [interpScanF_no_placeholder context _ _ h]
  · intro context pre inner post f hp hb
    exact interpScanF_placeholder context inner post hb pre f hp

/-- C9 witness: the spec applied to concrete texts — pass-through on plain
text and replacement of a balanced region. -/
theorem interpolateString_spec_witness :
    interpolateString "plain text" (Value.obj VObj.nil) =
      Value.str "plain text" ∧
    interpScanF ("Hi ".data.length + 1 + 1) (Value.obj VObj.nil)
        ("Hi ".data ++ '$' :: lbr :: ("1 + 2".data ++ rbr :: "!".data)) =
      "Hi ".data ++ (displayValue (evaluateExpression
        (Value.str (String.mk "1 + 2".data)) (Value.obj VObj.nil))).data ++
        interpScanF 1 (Value.obj VObj.nil) "!".data :=
  ⟨interpolateString_spec.1 "plain text" (Value.obj VObj.nil) rfl,
   interpolateString_spec.2.1 (Value.obj VObj.nil) "Hi ".data "1 + 2".data
     "!".data 1 rfl rfl⟩

/-! ## Claim C10: reachable-state stack invariants -/

/-- Frame index within bounds, inclusively. -/
def frameOk (fr : Frame) : Bool := decide (fr.index ≤ fr.nodes.length)

/-- Strict index bound; holds for every frame below the top. -/
def frameStrict (fr : Frame) : Bool := decide (fr.index < fr.nodes.length)

/-- The claimed stack invariant: non-empty, all indices within bounds. -/
def stackOk (stack : List Frame) : Bool :=
  !stack.isEmpty && stack.all frameOk

/-- Auxiliary invariant: frames strictly below the top point at a node. -/
def belowTopOk (stack : List Frame) : Bool :=
  stack.dropLast.all frameStrict

/-- Every history snapshot's stack satisfies both stack invariants. -/
def histOk (history : List Snapshot) : Bool :=
  history.all fun h => stackOk h.stack && belowTopOk h.stack

/-- The full inductive invariant. -/
def SimInv (s : SimState) : Prop :=
  stackOk s.stack = true ∧ belowTopOk s.stack = true ∧ histOk s.history = true

theorem frameOk_of_strict {fr : Frame} (h : frameStrict fr = true) :
    frameOk fr = true := by
  simp only [frameStrict, frameOk, decide_eq_true_eq] at *
  omega

theorem all_frameOk_of_strict {l : List Frame}
    (h : l.all frameStrict = true) : l.all frameOk = true := by
  rw [List.all_eq_true] at *
  exact fun fr hm => frameOk_of_strict (h fr hm)

theorem stackOk_concat {ys : List Frame} {fr : Frame} :
    stackOk (ys ++ [fr]) = true ↔
      ys.all frameOk = true ∧ frameOk fr = true := by
  simp [stackOk, List.all_append]

theorem belowTopOk_concat {ys : List Frame} {fr : Frame} :
    belowTopOk (ys ++ [fr]) = true ↔ ys.all frameStrict = true := by
  simp [belowTopOk, List.dropLast_concat]

/-- Inversion of `getLast?`. -/
theorem getLast?_decomp {α : Type _} :
    ∀ (l : List α) (x : α), l.getLast? = some x →
      ∃ ys, l = ys ++ [x]
  | [], x, h => by simp at h
  | [a], x, h => by
    simp [List.getLast?] at h
    exact ⟨[], by simp [h]⟩
  | a :: b :: l, x, h => by
    rw [List.getLast?_cons_cons] at h
    obtain ⟨ys, hys⟩ := getLast?_decomp (b :: l) x h
    exact ⟨a :: ys, by simp [hys]⟩

theorem incTop_concat :
    ∀ (ys : List Frame) (fr : Frame),
      incTop (ys ++ [fr]) = ys ++ [{ fr with index := fr.index + 1 }]
  | [], _ => rfl
  | [_], _ => rfl
  | y :: y2 :: ys, fr => by
    show y :: incTop (y2 :: ys ++ [fr]) = _
    rw [incTop_concat (y2 :: ys) fr]
    rfl

theorem resetTop_concat :
    ∀ (ys : List Frame) (fr : Frame),
      resetTop (ys ++ [fr]) = ys ++ [{ fr with index := 0 }]
  | [], _ => rfl
  | [_], _ => rfl
  | y :: y2 :: ys, fr => by
    show y :: resetTop (y2 :: ys ++ [fr]) = _
    rw [resetTop_concat (y2 :: ys) fr]
    rfl

/-- A stack update produced by one `processFlow` pass preserves both stack
invariants. -/
theorem flowStep_updStack_inv {stack st : List Frame} {context : Value}
    (hok : stackOk stack = true) (hbt : belowTopOk stack = true)
    (h : flowStep stack context = FlowResult.updStack st) :
    stackOk st = true ∧ belowTopOk st = true := by
  unfold flowStep at h
  split at h
  · exact absurd h (by simp)
  · rename_i ptr hl
    obtain ⟨ys, rfl⟩ := getLast?_decomp stack ptr hl
    have hysOk : ys.all frameOk = true := (stackOk_concat.mp hok).1
    have hysStrict : ys.all frameStrict = true := belowTopOk_concat.mp hbt
    by_cases hidx : ptr.nodes.length ≤ ptr.index
    · rw [if_pos hidx] at h
      by_cases hloop : ptr.kind = FrameKind.loopBlock ∧
          truthy (evaluateExpression ptr.expression context) = true
      · rw [if_pos hloop] at h
        cases h
        rw [resetTop_concat]
        exact ⟨stackOk_concat.mpr ⟨hysOk, by simp [frameOk]⟩,
          belowTopOk_concat.mpr hysStrict⟩
      · rw [if_neg hloop] at h
        by_cases hlen : 1 < (ys ++ [ptr]).length
        · rw [if_pos hlen] at h
          cases h
          rw [List.dropLast_concat]
          have hys : ys ≠ [] := by
            intro hy
            rw [hy] at hlen
            simp at hlen
          rcases List.eq_nil_or_concat ys with hy | ⟨zs, parent, rfl⟩
          · exact absurd hy hys
          · simp only [List.concat_eq_append] at hysOk hysStrict ⊢
            rw [incTop_concat]
            simp only [List.all_append, List.all_cons, List.all_nil,
              Bool.and_eq_true, Bool.and_true] at hysStrict
            refine ⟨stackOk_concat.mpr
                ⟨all_frameOk_of_strict hysStrict.1, ?_⟩,
              belowTopOk_concat.mpr hysStrict.1⟩
            have hparent := hysStrict.2
            simp only [frameStrict, frameOk, decide_eq_true_eq] at hparent ⊢
            omega
        · rw [if_neg hlen] at h
          exact absurd h (by simp)
    · rw [if_neg hidx] at h
      have hptr : frameStrict ptr = true := by
        simp only [frameStrict, decide_eq_true_eq]
        omega
      have hpush : ∀ (block : List Node) (k : FrameKind) (e : Value),
          st = (ys ++ [ptr]) ++ [⟨block, 0, k, e⟩] →
          stackOk st = true ∧ belowTopOk st = true := by
        rintro block k e rfl
        refine ⟨stackOk_concat.mpr ⟨?_, by simp [frameOk]⟩,
          belowTopOk_concat.mpr ?_⟩
        · rw [List.all_append]
          simp [hysOk, frameOk_of_strict hptr]
        · rw [List.all_append]
          simp [hysStrict, hptr]
      have hskip : st = incTop (ys ++ [ptr]) →
          stackOk st = true ∧ belowTopOk st = true := by
        rintro rfl
        rw [incTop_concat]
        refine ⟨stackOk_concat.mpr ⟨hysOk, ?_⟩, belowTopOk_concat.mpr hysStrict⟩
        simp only [frameStrict, decide_eq_true_eq] at hptr
        simp only [frameOk, decide_eq_true_eq]
        omega
      cases hnode : ptr.nodes.getD ptr.index (Node.unknown "" "") with
      | userInteraction i p fl en =>
        rw [hnode] at h
        exact absurd h (by simp)
      | apiCall i a r en =>
        rw [hnode] at h
        exact absurd h (by simp)
      | decision i e ifb elseb =>
        rw [hnode] at h
        rcases hres : truthy (evaluateExpression (localize e) context)
        · simp only [hres, Bool.false_eq_true, ↓reduceIte] at h
          by_cases hblk : 0 < elseb.length
          · rw [if_pos hblk] at h
            cases h
            exact hpush elseb FrameKind.decisionBlock Value.undef rfl
          · rw [if_neg hblk] at h
            cases h
            exact hskip rfl
        · simp only [hres, Bool.false_eq_true, ↓reduceIte] at h
          by_cases hblk : 0 < ifb.length
          · rw [if_pos hblk] at h
            cases h
            exact hpush ifb FrameKind.decisionBlock Value.undef rfl
          · rw [if_neg hblk] at h
            cases h
            exact hskip rfl
      | whileLoop i e actions =>
        rw [hnode] at h
        rcases hres : truthy (evaluateExpression (localize e) context)
        · simp only [hres, Bool.false_eq_true, ↓reduceIte] at h
          cases h
          exact hskip rfl
        · simp only [hres, Bool.false_eq_true, ↓reduceIte] at h
          cases h
          exact hpush actions FrameKind.loopBlock (localize e) rfl
      | doWhile i e actions =>
        rw [hnode] at h
        simp only [] at h
        cases h
        exact hpush actions FrameKind.loopBlock (localize e) rfl
      | unknown t i =>
        rw [hnode] at h
        exact absurd h (by simp)

/-- A halt implies the top frame points strictly inside its node list. -/
theorem flowStep_halt_top {stack : List Frame} {context : Value} {n : Node}
    (h : flowStep stack context = FlowResult.halt n) :
    ∃ ys fr, stack = ys ++ [fr] ∧ fr.index < fr.nodes.length := by
  unfold flowStep at h
  split at h
  · exact absurd h (by simp)
  · rename_i ptr hl
    obtain ⟨ys, rfl⟩ := getLast?_decomp stack ptr hl
    refine ⟨ys, ptr, rfl, ?_⟩
    by_contra hidx
    rw [if_pos (by omega)] at h
    by_cases hloop : ptr.kind = FrameKind.loopBlock ∧
        truthy (evaluateExpression ptr.expression context) = true
    · rw [if_pos hloop] at h
      exact absurd h (by simp)
    · rw [if_neg hloop] at h
      by_cases hlen : 1 < (ys ++ [ptr]).length
      · rw [if_pos hlen] at h
        exact absurd h (by simp)
      · rw [if_neg hlen] at h
        exact absurd h (by simp)

/-- `rehydrateInputs` only touches `currentInputs`. -/
theorem rehydrateInputs_stack (s : SimState) :
    (rehydrateInputs s).stack = s.stack ∧
    (rehydrateInputs s).history = s.history ∧
    (rehydrateInputs s).context = s.context ∧
    (rehydrateInputs s).currentStep = s.currentStep := by
  unfold rehydrateInputs
  split <;> exact ⟨rfl, rfl, rfl, rfl⟩

/-- Inversion of a successful `handleNext`: either nothing happened (no
current step) or the state advanced with some next context. -/
theorem handleNext_ok_inv {s : SimState} {apiName : String}
    {payload : Option Value} {s' : SimState}
    (h : handleNext s apiName payload = Except.ok s') :
    s' = s ∨ ∃ ctx, s' = advanceWith s ctx := by
  unfold handleNext at h
  split at h
  · cases h
    exact Or.inl rfl
  · rename_i id p fields en
    split at h
    · exact absurd h (by simp)
    · cases h
      exact Or.inr ⟨_, rfl⟩
  · split at h
    · exact absurd h (by simp)
    · cases h
      exact Or.inr ⟨_, rfl⟩
  · cases h
    exact Or.inr ⟨_, rfl⟩

/-- `advanceWith` preserves the invariant when the top frame is strict. -/
theorem advanceWith_inv {s : SimState} {ctx : Value} (hinv : SimInv s)
    (htop : ∃ ys fr, s.stack = ys ++ [fr] ∧ fr.index < fr.nodes.length) :
    SimInv (advanceWith s ctx) := by
  obtain ⟨hok, hbt, hh⟩ := hinv
  obtain ⟨ys, fr, hdec, hidx⟩ := htop
  refine ⟨?_, ?_, ?_⟩
  · show stackOk (incTop s.stack) = true
    rw [hdec, incTop_concat]
    rw [hdec] at hok
    refine stackOk_concat.mpr ⟨(stackOk_concat.mp hok).1, ?_⟩
    simp only [frameOk, decide_eq_true_eq]
    omega
  · show belowTopOk (incTop s.stack) = true
    rw [hdec, incTop_concat]
    rw [hdec] at hbt
    exact belowTopOk_concat.mpr (belowTopOk_concat.mp hbt)
  · show histOk (s.history ++ [⟨s.stack, ctx⟩]) = true
    rw [histOk] at hh ⊢
    rw [List.all_append, hh]
    simp [hok, hbt]

/-- `handleBack` preserves the invariant. -/
theorem handleBack_inv {s : SimState} (hinv : SimInv s) :
    SimInv (handleBack s) := by
  obtain ⟨hok, hbt, hh⟩ := hinv
  have hhAll := hh
  rw [histOk, List.all_eq_true] at hhAll
  unfold handleBack
  rcases hl : s.history.getLast? with _ | prev
  · exact ⟨hok, hbt, hh⟩
  · have hmem : prev ∈ s.history := by
      obtain ⟨ys, hys⟩ := getLast?_decomp _ _ hl
      rw [hys]
      simp
    have hprev := hhAll prev hmem
    simp only [Bool.and_eq_true] at hprev
    refine ⟨hprev.1, hprev.2, ?_⟩
    show histOk s.history.dropLast = true
    rw [histOk, List.all_eq_true]
    intro x hx
    exact hhAll x (List.dropLast_subset _ hx)

/-- Every reachable state satisfies the full invariant. -/
theorem reach_SimInv {s : SimState} (h : Reach s) : SimInv s := by
  induction h with
  | init wf now hwf =>
    exact ⟨by simp [resetSimulation, stackOk, frameOk],
      by simp [resetSimulation, belowTopOk], by simp [resetSimulation, histOk]⟩
  | reset s wf now hwf _ _ =>
    exact ⟨by simp [resetSimulation, stackOk, frameOk],
      by simp [resetSimulation, belowTopOk], by simp [resetSimulation, histOk]⟩
  | auto s st _ hstep ih =>
    have := flowStep_updStack_inv ih.1 ih.2.1 hstep
    exact ⟨this.1, this.2, ih.2.2⟩
  | haltView s n _ hstep ih =>
    have hr := rehydrateInputs_stack { s with currentStep := StepView.node n }
    exact ⟨by rw [hr.1]; exact ih.1, by rw [hr.1]; exact ih.2.1,
      by rw [hr.2.1]; exact ih.2.2⟩
  | completeView s _ _ ih => exact ih
  | typing s values _ ih => exact ih
  | submit s s' n apiName payload values _ hhalt hview hok ih =>
    rcases handleNext_ok_inv hok with rfl | ⟨ctx, rfl⟩
    · exact ih
    · exact advanceWith_inv ih (flowStep_halt_top hhalt)
  | back s _ ih => exact handleBack_inv ih

/-- C10: in every reachable state the execution stack is non-empty (the root
frame is never popped; completion only sets the end marker) and every frame's
index lies between 0 and the length of its node list inclusive. -/
theorem reachable_stack_invariant (s : SimState) (h : Reach s) :
    s.stack ≠ [] ∧ ∀ fr ∈ s.stack, fr.index ≤ fr.nodes.length := by
  have hok := (reach_SimInv h).1
  rw [stackOk, Bool.and_eq_true] at hok
  obtain ⟨hne, hall⟩ := hok
  refine ⟨?_, fun fr hfr => ?_⟩
  · intro hnil
    rw [hnil] at hne
    simp at hne
  · simpa [frameOk] using List.all_eq_true.mp hall fr hfr

/-- C10 witness: the invariant at a concrete freshly-reset state. -/
theorem reachable_stack_invariant_witness :
    (resetSimulation [Node.apiCall "a0" "s" "s" false] (Value.str "now")
      mountState).stack ≠ [] :=
  (reachable_stack_invariant _
    (Reach.init [Node.apiCall "a0" "s" "s" false] (Value.str "now")
      (by simp))).1

/-! ## Claim C1: the submit/goBack round trip

The history snapshot pushed by `handleNext` holds the pre-increment stack
together with the **post-merge** context (`snapshot = { stack:
JSON-copy(executionStack), context: nextContext }`, with the source's own
comment: "going 'back' returns to this step WITH the data we just saved").
So `goBack` after `submitUserInput` restores the prior step and stack, but
not the prior replies. -/

/-- The single required field of the concrete round-trip run. -/
def c1Field : Field := ⟨"budget", "numeric", Value.undef⟩
/-- Its one-step workflow. -/
def c1Node : Node :=
  Node.userInteraction "u1" (Value.str "How much?") [c1Field] false
/-- The submitted values. -/
def c1Vals : Value := Value.obj (objV [("budget", Value.num 500)])
/-- The simulator halted at the step after reset and auto-advance. -/
def c1Start : SimState :=
  settle 10 (resetSimulation [c1Node] (Value.str "t0") mountState)
/-- The state right after a successful submit. -/
def c1Submitted : SimState :=
  match submitUserInput c1Start c1Vals with
  | Except.ok t => t
  | Except.error _ => c1Start
/-- After the post-submit effects. -/
def c1AfterSubmit : SimState := settle 10 c1Submitted
/-- After pressing Back and letting the effects settle. -/
def c1AfterBack : SimState := settle 10 (handleBack c1AfterSubmit)

/-- C1 (counterexample): on a one-step workflow, submit `budget = 500` then
go back: the prior current step and stack are restored, but the context is
*not* — the replies still hold the submitted value, because the snapshot
stored the post-merge context, not the pre-merge one. -/
theorem roundTrip_context_not_restored :
    c1AfterBack.currentStep = c1Start.currentStep ∧
    c1AfterBack.stack = c1Start.stack ∧
    objLookup c1Start.context "replies" = Value.obj VObj.nil ∧
    objLookup c1AfterBack.context "replies" =
      Value.obj (VObj.cons "budget" (Value.num 500) VObj.nil) ∧
    objLookup c1AfterBack.context "replies" ≠
      objLookup c1Start.context "replies" := by
  refine ⟨rfl, rfl, rfl, rfl, ?_⟩
  intro h
  have h2 : Value.obj (VObj.cons "budget" (Value.num 500) VObj.nil) =
      Value.obj VObj.nil := h
  injection h2 with h3
  exact VObj.noConfusion h3

/-- Updating a key with the value it already holds is the identity. -/
theorem objUpdate_lookup_self : ∀ (fs : VObj) (k : String),
    lookupA fs k ≠ Value.undef → objUpdate fs k (lookupA fs k) = fs
  | VObj.nil, _, h => absurd rfl h
  | VObj.cons k' v rest, k, h => by
    by_cases hk : k' = k
    · simp [lookupA, objUpdate, hk]
    · simp only [lookupA, hk, if_false] at h
      simp [lookupA, objUpdate, hk, objUpdate_lookup_self rest k h]

/-- Lookup after update. -/
theorem lookupA_objUpdate : ∀ (fs : VObj) (k : String) (v : Value)
    (k' : String), lookupA (objUpdate fs k v) k' =
      if k = k' then v else lookupA fs k'
  | VObj.nil, k, v, k' => by
    by_cases h : k = k' <;> simp [objUpdate, lookupA, h]
  | VObj.cons k0 v0 rest, k, v, k' => by
    by_cases h0 : k0 = k
    · subst h0
      by_cases h1 : k0 = k' <;> simp [objUpdate, lookupA, h1]
    · by_cases h1 : k0 = k'
      · subst h1
        have hk : ¬(k = k0) := fun hh => h0 hh.symm
        simp [objUpdate, lookupA, h0, hk]
      · simp [objUpdate, lookupA, h0, h1, lookupA_objUpdate rest k v k']

/-- Writing back a reply value that is already present is the identity. -/
theorem setReply_self (fs rs : VObj) (name : String)
    (hrs : lookupA fs "replies" = Value.obj rs)
    (h : lookupA rs name ≠ Value.undef) :
    setReply (Value.obj fs) name (lookupA rs name) = Value.obj fs := by
  show objSet (Value.obj fs) "replies"
    (objSet (objLookup (Value.obj fs) "replies") name (lookupA rs name)) =
      Value.obj fs
  show objSet (Value.obj fs) "replies"
    (objSet (lookupA fs "replies") name (lookupA rs name)) = Value.obj fs
  rw [hrs]
  show Value.obj (objUpdate fs "replies"
    (Value.obj (objUpdate rs name (lookupA rs name)))) = Value.obj fs
  rw [objUpdate_lookup_self rs name h]
  have h2 : lookupA fs "replies" ≠ Value.undef := by
    rw [hrs]
    exact fun hh => Value.noConfusion hh
  have h3 := objUpdate_lookup_self fs "replies" h2
  rw [hrs] at h3
  rw [h3]

/-- Merging inputs whose entries match the saved replies verbatim leaves the
context unchanged. -/
theorem mergeReplies_noop (fields : List Field) (fs rs : VObj)
    (hrs : lookupA fs "replies" = Value.obj rs) (inputs : Value)
    (hin : ∀ f ∈ fields, objLookup inputs f.name = Value.undef ∨
      objLookup inputs f.name = lookupA rs f.name) :
    mergeReplies (Value.obj fs) fields inputs = Value.obj fs := by
  induction fields with
  | nil => rfl
  | cons f rest ih =>
    have hstep : mergeStep inputs (Value.obj fs) f = Value.obj fs := by
      rcases hin f (by simp) with hu | he
      · simp [mergeStep, hu]
      · by_cases hu2 : objLookup inputs f.name = Value.undef
        · simp [mergeStep, hu2]
        · have hne : lookupA rs f.name ≠ Value.undef := by
            rw [← he]; exact hu2
          have hss := setReply_self fs rs f.name hrs hne
          rw [← he] at hss
          rcases hv : objLookup inputs f.name with _ | _ | b | n | st | xs | gs
          · exact absurd hv hu2
          all_goals
            rw [hv] at hss
            simpa [mergeStep, hv] using hss
    show mergeReplies (mergeStep inputs (Value.obj fs) f) rest inputs =
      Value.obj fs
    rw [hstep]
    exact ih (fun g hg => hin g (by simp [hg]))

/-- Shape and content of a merged context: it is still an object whose
`replies` is an object, every reply entry comes from the inputs or from the
original replies, and each merged field's entry equals its input entry. -/
theorem mergeReplies_result (inputs : Value) :
    ∀ (fields : List Field) (fs rs : VObj),
      lookupA fs "replies" = Value.obj rs →
      ∃ fs' rs',
        mergeReplies (Value.obj fs) fields inputs = Value.obj fs' ∧
        lookupA fs' "replies" = Value.obj rs' ∧
        (∀ name, lookupA rs' name = objLookup inputs name ∨
          lookupA rs' name = lookupA rs name) ∧
        (∀ f ∈ fields, objLookup inputs f.name = Value.undef ∨
          lookupA rs' f.name = objLookup inputs f.name) := by
  intro fields
  induction fields with
  | nil =>
    intro fs rs h
    exact ⟨fs, rs, rfl, h, fun _ => Or.inr rfl, by simp⟩
  | cons f rest ih =>
    intro fs rs h
    by_cases hu : objLookup inputs f.name = Value.undef
    · have hstep : mergeStep inputs (Value.obj fs) f = Value.obj fs := by
        simp [mergeStep, hu]
      obtain ⟨fs', rs', h1, h2, h3, h4⟩ := ih fs rs h
      refine ⟨fs', rs', ?_, h2, h3, ?_⟩
      · show mergeReplies (mergeStep inputs (Value.obj fs) f) rest inputs = _
        rw [hstep]
        exact h1
      · intro g hg
        rcases List.mem_cons.mp hg with rfl | hg'
        · exact Or.inl hu
        · exact h4 g hg'
    · have hstep1 : mergeStep inputs (Value.obj fs) f =
          setReply (Value.obj fs) f.name (objLookup inputs f.name) := by
        rcases hv : objLookup inputs f.name with _ | _ | b | n | st | xs | gs
        · exact absurd hv hu
        all_goals simp [mergeStep, hv]
      have hstep : mergeStep inputs (Value.obj fs) f =
          Value.obj (objUpdate fs "replies"
            (Value.obj (objUpdate rs f.name (objLookup inputs f.name)))) := by
        rw [hstep1]
        show objSet (Value.obj fs) "replies"
          (objSet (lookupA fs "replies") f.name (objLookup inputs f.name)) = _
        rw [h]
        rfl
      have hrep1 : lookupA (objUpdate fs "replies"
          (Value.obj (objUpdate rs f.name (objLookup inputs f.name))))
            "replies" =
          Value.obj (objUpdate rs f.name (objLookup inputs f.name)) := by
        rw [lookupA_objUpdate]
        simp
      obtain ⟨fs', rs', h1, h2, h3, h4⟩ := ih _ _ hrep1
      refine ⟨fs', rs', ?_, h2, ?_, ?_⟩
      · show mergeReplies (mergeStep inputs (Value.obj fs) f) rest inputs = _
        rw [hstep]
        exact h1
      · intro name
        rcases h3 name with hl | hr
        · exact Or.inl hl
        · rw [lookupA_objUpdate] at hr
          by_cases hnm : f.name = name
          · rw [if_pos hnm] at hr
            rw [hnm] at hr
            exact Or.inl hr
          · rw [if_neg hnm] at hr
            exact Or.inr hr
      · intro g hg
        rcases List.mem_cons.mp hg with rfl | hg'
        · rcases h3 g.name with hl | hr
          · exact Or.inr hl
          · rw [lookupA_objUpdate, if_pos rfl] at hr
            exact Or.inr hr
        · exact h4 g hg'

/-- Every entry of a rehydrated inputs object comes from the saved replies. -/
theorem restrictReplies_sub (ctx : Value) (rs : VObj)
    (hrs : objLookup ctx "replies" = Value.obj rs) :
    ∀ (fields : List Field) (acc : VObj),
      (∀ name, lookupA acc name = Value.undef ∨
        lookupA acc name = lookupA rs name) →
      ∀ name,
        objLookup (fields.foldl (restrictStep ctx) (Value.obj acc)) name =
          Value.undef ∨
        objLookup (fields.foldl (restrictStep ctx) (Value.obj acc)) name =
          lookupA rs name := by
  intro fields
  induction fields with
  | nil =>
    intro acc hacc name
    exact hacc name
  | cons f rest ih =>
    intro acc hacc name
    have hstep : ∃ acc', restrictStep ctx (Value.obj acc) f = Value.obj acc' ∧
        ∀ nm, lookupA acc' nm = Value.undef ∨
          lookupA acc' nm = lookupA rs nm := by
      rcases hv : objLookup (objLookup ctx "replies") f.name with
        _ | _ | b | n | st | xs | gs
      · exact ⟨acc, by simp [restrictStep, hv], hacc⟩
      all_goals
        rw [hrs] at hv
        rw [show objLookup (Value.obj rs) f.name = lookupA rs f.name from rfl]
          at hv
        refine ⟨objUpdate acc f.name (lookupA rs f.name), ?_, ?_⟩
        · unfold restrictStep
          rw [hrs,
            show objLookup (Value.obj rs) f.name = lookupA rs f.name from rfl,
            hv]
          rfl
        · intro nm
          rw [lookupA_objUpdate]
          by_cases hnm : f.name = nm
          · rw [if_pos hnm, ← hnm]
            exact Or.inr rfl
          · rw [if_neg hnm]
            exact hacc nm
    obtain ⟨acc', ha1, ha2⟩ := hstep
    show objLookup
        (rest.foldl (restrictStep ctx) (restrictStep ctx (Value.obj acc) f))
        name = Value.undef ∨
      objLookup
        (rest.foldl (restrictStep ctx) (restrictStep ctx (Value.obj acc) f))
        name = lookupA rs name
    rw [ha1]
    exact ih acc' ha2 name

/-- The property preserved while the effects settle after a submit: whenever
the view is a `user_interaction`, merging the current inputs into the
snapshot context is the identity (so a Back press restores exactly the
snapshot context). -/
def mergesToId (snapctx : Value) (t : SimState) : Prop :=
  match t.currentStep with
  | StepView.node (Node.userInteraction _ _ flds _) =>
    mergeReplies snapctx flds t.currentInputs = snapctx
  | _ => True

/-- The effect loop preserves context, history and `mergesToId`. -/
theorem settle_mergesToId (fs rs : VObj)
    (hrs : lookupA fs "replies" = Value.obj rs) :
    ∀ (g : Nat) (t : SimState), t.context = Value.obj fs →
      mergesToId (Value.obj fs) t →
      (settle g t).context = Value.obj fs ∧
      (settle g t).history = t.history ∧
      mergesToId (Value.obj fs) (settle g t) := by
  intro g
  induction g with
  | zero => exact fun t h1 h2 => ⟨h1, rfl, h2⟩
  | succ g ih =>
    intro t h1 h2
    have hset : settle (g + 1) t = (match flowStep t.stack t.context with
      | FlowResult.updStack st => settle g { t with stack := st }
      | FlowResult.halt n =>
        rehydrateInputs { t with currentStep := StepView.node n }
      | FlowResult.completed => { t with currentStep := StepView.ended }
      | FlowResult.stall _ => t
      | FlowResult.idle => t) := rfl
    rcases hf : flowStep t.stack t.context with st | n | _ | ty
    all_goals rw [hf] at hset
    all_goals rw [hset]
    · exact ih { t with stack := st } h1 h2
    · cases n with
      | userInteraction i p flds en =>
        refine ⟨h1, rfl, ?_⟩
        show mergesToId (Value.obj fs)
          (rehydrateInputs { t with
            currentStep := StepView.node (Node.userInteraction i p flds en) })
        show mergesToId (Value.obj fs)
          { t with
            currentStep := StepView.node (Node.userInteraction i p flds en)
            currentInputs := restrictReplies t.context flds }
        show mergeReplies (Value.obj fs) flds (restrictReplies t.context flds) =
          Value.obj fs
        rw [h1]
        refine mergeReplies_noop flds fs rs hrs _ ?_
        intro f hf2
        exact restrictReplies_sub (Value.obj fs) rs hrs flds VObj.nil
          (fun _ => Or.inl rfl) f.name
      | apiCall i a r en => exact ⟨h1, rfl, trivial⟩
      | decision i e ifb elseb => exact ⟨h1, rfl, trivial⟩
      | whileLoop i e actions => exact ⟨h1, rfl, trivial⟩
      | doWhile i e actions => exact ⟨h1, rfl, trivial⟩
      | unknown ty i => exact ⟨h1, rfl, trivial⟩
    · exact ⟨h1, rfl, trivial⟩
    · exact ⟨h1, rfl, h2⟩
    · exact ⟨h1, rfl, h2⟩

/-- A halt at a `user_interaction` is decided by the stack alone: the node
under the top frame's cursor is interactive, which no context can change. -/
theorem flowStep_halt_user_ctx (stack : List Frame) (ctx : Value)
    (nid : String) (p : Value) (flds : List Field) (en : Bool)
    (h : flowStep stack ctx =
      FlowResult.halt (Node.userInteraction nid p flds en)) :
    ∀ ctx', flowStep stack ctx' =
      FlowResult.halt (Node.userInteraction nid p flds en) := by
  intro ctx'
  unfold flowStep at h
  split at h
  · exact FlowResult.noConfusion h
  · rename_i ptr hl
    obtain ⟨ys, rfl⟩ := getLast?_decomp stack ptr hl
    by_cases hc : ptr.nodes.length ≤ ptr.index
    · rw [if_pos hc] at h
      split at h
      · exact FlowResult.noConfusion h
      · split at h
        · exact FlowResult.noConfusion h
        · exact FlowResult.noConfusion h
    · rw [if_neg hc] at h
      cases hnode : ptr.nodes.getD ptr.index (Node.unknown "" "") with
      | userInteraction a b c d =>
        rw [hnode] at h
        have h2 : Node.userInteraction a b c d =
            Node.userInteraction nid p flds en := by
          injection h
        simp only [flowStep, List.getLast?_concat]
        rw [if_neg hc, hnode, h2]
      | apiCall a b c d =>
        rw [hnode] at h
        injection h with h2
        exact Node.noConfusion h2
      | decision a e ifb elseb =>
        rw [hnode] at h
        rcases hres : truthy (evaluateExpression (localize e) ctx)
        · simp only [hres, Bool.false_eq_true, ↓reduceIte] at h
          split at h
          · exact FlowResult.noConfusion h
          · exact FlowResult.noConfusion h
        · simp only [hres, Bool.false_eq_true, ↓reduceIte] at h
          split at h
          · exact FlowResult.noConfusion h
          · exact FlowResult.noConfusion h
      | whileLoop a e actions =>
        rw [hnode] at h
        rcases hres : truthy (evaluateExpression (localize e) ctx)
        · simp only [hres, Bool.false_eq_true, ↓reduceIte] at h
          exact FlowResult.noConfusion h
        · simp only [hres, Bool.false_eq_true, ↓reduceIte] at h
          exact FlowResult.noConfusion h
      | doWhile a e actions =>
        rw [hnode] at h
        simp only [] at h
        exact FlowResult.noConfusion h
      | unknown a b =>
        rw [hnode] at h
        simp only [] at h
        exact FlowResult.noConfusion h

/-- One effect pass at a state whose flow halts: the loop stops, sets the
view to the halted node and rehydrates the inputs. -/
theorem settle_succ_halt (t : SimState) (g : Nat) (n : Node)
    (h : flowStep t.stack t.context = FlowResult.halt n) :
    settle (g + 1) t =
      rehydrateInputs { t with currentStep := StepView.node n } := by
  show (match flowStep t.stack t.context with
    | FlowResult.updStack st => settle g { t with stack := st }
    | FlowResult.halt m =>
      rehydrateInputs { t with currentStep := StepView.node m }
    | FlowResult.completed => { t with currentStep := StepView.ended }
    | FlowResult.stall _ => t
    | FlowResult.idle => t) =
    rehydrateInputs { t with currentStep := StepView.node n }
  rw [h]

/-- Pressing Back on a settled state whose history ends in a snapshot of the
current object context: the snapshot's stack and context come back verbatim
and the snapshot is popped (merging the rehydrated inputs is the identity). -/
theorem handleBack_after_settle (t : SimState) (fs' : VObj)
    (snapStack : List Frame) (hist : List Snapshot)
    (hhist : t.history = hist ++ [⟨snapStack, Value.obj fs'⟩])
    (hmid : mergesToId (Value.obj fs') t) :
    (handleBack t).stack = snapStack ∧
    (handleBack t).context = Value.obj fs' ∧
    (handleBack t).history = hist ∧
    (handleBack t).currentInputs = t.currentInputs := by
  have hlast : t.history.getLast? = some ⟨snapStack, Value.obj fs'⟩ := by
    rw [hhist]
    exact List.getLast?_concat _
  have hbeq : handleBack t = { t with
      stack := snapStack
      context := match t.currentStep with
        | StepView.node (Node.userInteraction _ _ flds _) =>
          mergeReplies (Value.obj fs') flds t.currentInputs
        | _ => Value.obj fs'
      history := t.history.dropLast } := by
    unfold handleBack
    rw [hlast]
  have hctr : (match t.currentStep with
      | StepView.node (Node.userInteraction _ _ flds _) =>
        mergeReplies (Value.obj fs') flds t.currentInputs
      | _ => Value.obj fs') = Value.obj fs' := by
    unfold mergesToId at hmid
    cases hcs : t.currentStep with
    | none => rfl
    | ended => rfl
    | node n =>
      cases n with
      | userInteraction a b flds c =>
        rw [hcs] at hmid
        exact hmid
      | apiCall a b c d => rfl
      | decision a b c d => rfl
      | whileLoop a b c => rfl
      | doWhile a b c => rfl
      | unknown a b => rfl
  refine ⟨?_, ?_, ?_, ?_⟩
  · rw [hbeq]
  · rw [hbeq]
    exact hctr
  · rw [hbeq]
    show t.history.dropLast = hist
    rw [hhist]
    exact List.dropLast_concat
  · rw [hbeq]

/-- The round-trip behaviour actually implemented: the submit advances with
the post-merge context and snapshots the pre-increment stack together with
that merged context, so Back restores the prior stack, history and (after
the next effect pass) the prior current step, while the restored context is
the merged one - the submitted replies persist. -/
def RoundTrip (s : SimState) (fields : List Field) (values : Value)
    (s' : SimState) : Prop :=
  s'.stack = incTop s.stack ∧
  s'.context = mergeReplies s.context fields values ∧
  s'.history = s.history ++ [⟨s.stack, mergeReplies s.context fields values⟩] ∧
  s'.currentStep = s.currentStep ∧
  ∀ g,
    (handleBack (settle g s')).stack = s.stack ∧
    (handleBack (settle g s')).context =
      mergeReplies s.context fields values ∧
    (handleBack (settle g s')).history = s.history ∧
    ∀ g',
      (settle (g' + 1) (handleBack (settle g s'))).currentStep =
        s.currentStep ∧
      (settle (g' + 1) (handleBack (settle g s'))).stack = s.stack ∧
      (settle (g' + 1) (handleBack (settle g s'))).context =
        mergeReplies s.context fields values

/-- C1 (corrected): at a reachable halted `user_interaction` (context an
object whose `replies` is an object, view matching the halted node), a
successful `submitUserInput` followed by `handleBack` - after any number of
effect passes - restores the prior stack and history, and the next effect
pass restores the prior current step; but the restored context is the
snapshot's *post-merge* context `mergeReplies s.context fields values`, not
the pre-merge `s.context`: `handleNext` pushes the snapshot after merging
the inputs, so the submitted replies persist across the Back. -/
theorem submit_goBack_roundTrip (s : SimState) (fs rs : VObj)
    (nid : String) (p values : Value) (fields : List Field) (en : Bool)
    (s' : SimState)
    (hctx : s.context = Value.obj fs)
    (hrs : lookupA fs "replies" = Value.obj rs)
    (hview : s.currentStep =
      StepView.node (Node.userInteraction nid p fields en))
    (hhalt : flowStep s.stack s.context =
      FlowResult.halt (Node.userInteraction nid p fields en))
    (hsub : submitUserInput s values = Except.ok s') :
    RoundTrip s fields values s' := by
  have hunfold : submitUserInput s values =
      (if missingRequired fields values then
        Except.error SimError.validationError
      else
        Except.ok (advanceWith { s with currentInputs := values }
          (mergeReplies s.context fields values))) := by
    simp [submitUserInput, handleNext, hview]
  rw [hunfold] at hsub
  by_cases hm : missingRequired fields values = true
  · rw [if_pos hm] at hsub
    exact Except.noConfusion hsub
  · rw [if_neg hm] at hsub
    injection hsub with hs'
    subst hs'
    obtain ⟨fs', rs', hm1, hm2, hm3, hm4⟩ :=
      mergeReplies_result values fields fs rs hrs
    have hmc : mergeReplies s.context fields values = Value.obj fs' := by
      rw [hctx]
      exact hm1
    have hmid : mergesToId (Value.obj fs')
        (advanceWith { s with currentInputs := values }
          (mergeReplies s.context fields values)) := by
      unfold mergesToId
      rw [show (advanceWith { s with currentInputs := values }
          (mergeReplies s.context fields values)).currentStep =
        s.currentStep from rfl, hview]
      show mergeReplies (Value.obj fs') fields values = Value.obj fs'
      exact mergeReplies_noop fields fs' rs' hm2 values
        (fun f hf => (hm4 f hf).imp (fun hh => hh) Eq.symm)
    refine ⟨rfl, rfl, rfl, rfl, ?_⟩
    intro g
    have hst := settle_mergesToId fs' rs' hm2 g
      (advanceWith { s with currentInputs := values }
        (mergeReplies s.context fields values)) hmc hmid
    have hhist2 : (settle g (advanceWith { s with currentInputs := values }
        (mergeReplies s.context fields values))).history =
        s.history ++ [⟨s.stack, Value.obj fs'⟩] := by
      rw [← hmc]
      exact hst.2.1
    obtain ⟨hb1, hb2, hb3, _⟩ := handleBack_after_settle
      (settle g (advanceWith { s with currentInputs := values }
        (mergeReplies s.context fields values)))
      fs' s.stack s.history hhist2 hst.2.2
    have hb2' : (handleBack (settle g
        (advanceWith { s with currentInputs := values }
          (mergeReplies s.context fields values)))).context =
        mergeReplies s.context fields values := by
      conv_rhs => rw [hmc]
      exact hb2
    refine ⟨hb1, hb2', hb3, ?_⟩
    intro g'
    have hfsc : flowStep (handleBack (settle g
        (advanceWith { s with currentInputs := values }
          (mergeReplies s.context fields values)))).stack
        (handleBack (settle g
          (advanceWith { s with currentInputs := values }
            (mergeReplies s.context fields values)))).context =
        FlowResult.halt (Node.userInteraction nid p fields en) := by
      rw [hb1, hb2']
      exact flowStep_halt_user_ctx s.stack s.context nid p fields en hhalt
        (mergeReplies s.context fields values)
    have e1 := settle_succ_halt (handleBack (settle g
        (advanceWith { s with currentInputs := values }
          (mergeReplies s.context fields values)))) g'
      (Node.userInteraction nid p fields en) hfsc
    refine ⟨?_, ?_, ?_⟩
    · rw [e1]
      show StepView.node (Node.userInteraction nid p fields en) = s.currentStep
      exact hview.symm
    · rw [e1]
      exact hb1
    · rw [e1]
      exact hb2'

/-- The context object of the halted concrete one-step workflow. -/
def c1fs : VObj :=
  objV [("replies", Value.obj VObj.nil),
    ("api_responses", Value.obj VObj.nil),
    ("now", Value.str "t0")]

/-- C1 witness: the round-trip theorem applied at the concrete one-step
workflow with `budget = 500` submitted. -/
theorem submit_goBack_roundTrip_witness :
    RoundTrip c1Start [c1Field] c1Vals c1Submitted :=
  submit_goBack_roundTrip c1Start c1fs VObj.nil "u1" (Value.str "How much?")
    c1Vals [c1Field] false c1Submitted rfl rfl rfl rfl rfl

end Wave
